import Mathlib

/-!
Verification development for the Factory_Genie_Node service
(generic HTTP gateway over a schema-less document store).

The definitions below are a shallow embedding of the JavaScript source:
the query translator of the `GET /get-data` handler (comma splitting,
`isNaN`/`Number` type inference, `__exists` handling, `parseInt` limit,
`toLowerCase` sort direction) and the update normalizer `flattenObject`
of the `PUT /update-document` handler, together with the surrounding
request handlers.  JavaScript machine numbers are modelled exactly as
rationals (no claim below depends on binary floating-point rounding);
JavaScript `NaN` outcomes are modelled as `Option.none`.
-/

/-! ## Generic assoc-list operations (JavaScript object semantics)

A JavaScript object is modelled as an association list in insertion
order.  Assigning to an existing key keeps its position; assigning to a
fresh key appends.  `assignAll` is `Object.assign`. -/

def overwriteP {α : Type} : List (String × α) → String → α → List (String × α)
  | [], _, _ => []
  | (k0, v0) :: rest, k, v => (if k0 = k then (k, v) else (k0, v0)) :: overwriteP rest k v

def setKeyP {α : Type} : List (String × α) → String → α → List (String × α)
  | [], k, v => [(k, v)]
  | (k0, v0) :: rest, k, v =>
      if k0 = k then (k, v) :: overwriteP rest k v else (k0, v0) :: setKeyP rest k v

def assignAll {α : Type} (m src : List (String × α)) : List (String × α) :=
  src.foldl (fun a p => setKeyP a p.1 p.2) m

def lookupP {α : Type} : List (String × α) → String → Option α
  | [], _ => none
  | (k0, v) :: rest, k => if k0 = k then some v else lookupP rest k

/-! ## JavaScript string primitives -/

/-- JavaScript whitespace (the characters trimmed by `Number(...)` and
skipped by `parseInt`): space, tab, LF, VT, FF, CR, NBSP, LS, PS, BOM. -/
def isJsWS (c : Char) : Bool :=
  c == ' ' || c == '\t' || c == '\n' || c == '\x0b' || c == '\x0c' || c == '\r' ||
  c.toNat == 0xA0 || c.toNat == 0x2028 || c.toNat == 0x2029 || c.toNat == 0xFEFF

def jsTrim (l : List Char) : List Char :=
  ((l.dropWhile isJsWS).reverse.dropWhile isJsWS).reverse

def digitsVal (l : List Char) : Nat :=
  l.foldl (fun a c => 10 * a + (c.toNat - 48)) 0

def hexDigitVal (c : Char) : Option Nat :=
  if c.isDigit then some (c.toNat - 48)
  else if 'a' ≤ c ∧ c ≤ 'f' then some (c.toNat - 87)
  else if 'A' ≤ c ∧ c ≤ 'F' then some (c.toNat - 55)
  else none

def octDigitVal (c : Char) : Option Nat :=
  if '0' ≤ c ∧ c ≤ '7' then some (c.toNat - 48) else none

def binDigitVal (c : Char) : Option Nat :=
  if c == '0' || c == '1' then some (c.toNat - 48) else none

/-- Interpret the whole character list in the given radix; `none` when
empty or when any character is not a digit of that radix. -/
def radixAll (base : Nat) (dig : Char → Option Nat) (l : List Char) : Option Nat :=
  if l.isEmpty then none
  else l.foldl (fun acc c =>
    match acc, dig c with
    | some a, some d => some (base * a + d)
    | _, _ => none) (some 0)

/-- JavaScript machine numbers, with the exact rational carried for
finite values. -/
inductive JSNum where
  | fin (q : ℚ)
  | posInf
  | negInf
deriving DecidableEq

/-- The mathematical value `(-1)^neg * (ip + fp/10^|fp|) * 10^e` of a decimal
literal with integer digits `ip`, fraction digits `fp` and exponent `e`,
assembled with integer arithmetic and a single `mkRat` so that the value
is kernel-computable (Mathlib's rational field operations are
irreducible). -/
def decValue (neg : Bool) (ip fp : List Char) (e : Int) : ℚ :=
  let m : Nat := digitsVal ip * 10 ^ fp.length + digitsVal fp
  let sm : Int := if neg then -(m : Int) else (m : Int)
  if 0 ≤ e then mkRat (sm * (10 : Int) ^ e.toNat) (10 ^ fp.length)
  else mkRat sm (10 ^ fp.length * 10 ^ (-e).toNat)

/-- The exponent part of a decimal string literal: empty means `10^0`,
otherwise `e`/`E`, an optional sign, and at least one digit consuming
the entire remainder. -/
def parseExpPart : List Char → Option Int
  | [] => some 0
  | c :: r =>
    if c == 'e' || c == 'E' then
      match r with
      | '+' :: r2 => if r2 ≠ [] ∧ r2.all (·.isDigit) then some (digitsVal r2 : Int) else none
      | '-' :: r2 => if r2 ≠ [] ∧ r2.all (·.isDigit) then some (-(digitsVal r2 : Int)) else none
      | r2 => if r2 ≠ [] ∧ r2.all (·.isDigit) then some (digitsVal r2 : Int) else none
    else none

/-- An unsigned decimal literal per the ECMAScript `StrUnsignedDecimalLiteral`
grammar (minus `Infinity`, handled by the caller): digits, an optional
fraction, an optional exponent; at least one digit overall. -/
def parseDecCore (neg : Bool) (l : List Char) : Option ℚ :=
  let ip := l.takeWhile (·.isDigit)
  let r1 := l.dropWhile (·.isDigit)
  match r1 with
  | '.' :: r2 =>
      let fp := r2.takeWhile (·.isDigit)
      let r3 := r2.dropWhile (·.isDigit)
      if ip.isEmpty ∧ fp.isEmpty then none
      else (parseExpPart r3).map (decValue neg ip fp)
  | r2 =>
      if ip.isEmpty then none
      else (parseExpPart r2).map (decValue neg ip [])

def unsignedNum (neg : Bool) (l : List Char) : Option JSNum :=
  if l = "Infinity".data then some (if neg then .negInf else .posInf)
  else (parseDecCore neg l).map .fin

def signedNum : List Char → Option JSNum
  | '+' :: r => unsignedNum false r
  | '-' :: r => unsignedNum true r
  | l => unsignedNum false l

/-- ECMAScript `ToNumber` on a string (`Number(s)`), with `none` for `NaN`.
The empty / all-whitespace string converts to `0`; `0x`/`0o`/`0b` radix
literals take no sign; otherwise a signed decimal literal or `Infinity`. -/
def jsStringToNumber (s : String) : Option JSNum :=
  match jsTrim s.data with
  | [] => some (.fin 0)
  | '0' :: c :: r =>
      if c == 'x' || c == 'X' then (radixAll 16 hexDigitVal r).map (fun n => .fin (n : ℚ))
      else if c == 'o' || c == 'O' then (radixAll 8 octDigitVal r).map (fun n => .fin (n : ℚ))
      else if c == 'b' || c == 'B' then (radixAll 2 binDigitVal r).map (fun n => .fin (n : ℚ))
      else signedNum ('0' :: c :: r)
  | l => signedNum l

/-- JavaScript `parseInt(s)` (radix unspecified): skip leading whitespace,
optional sign, `0x`/`0X` hex detection, then the longest leading digit
run; `none` for `NaN`. -/
def parseIntDigits (l : List Char) : Option Nat :=
  let ds := l.takeWhile (·.isDigit)
  if ds.isEmpty then none else some (digitsVal ds)

def parseIntHexDigits (l : List Char) : Option Nat :=
  let ds := l.takeWhile (fun c => (hexDigitVal c).isSome)
  if ds.isEmpty then none
  else some (ds.foldl (fun a c => 16 * a + ((hexDigitVal c).getD 0)) 0)

def parseIntNoSign (l : List Char) : Option Nat :=
  match l with
  | '0' :: c :: r =>
      if c == 'x' || c == 'X' then parseIntHexDigits r else parseIntDigits l
  | _ => parseIntDigits l

def jsParseInt (s : String) : Option Int :=
  match s.data.dropWhile isJsWS with
  | '+' :: r => (parseIntNoSign r).map (fun n => (n : Int))
  | '-' :: r => (parseIntNoSign r).map (fun n => -(n : Int))
  | l => (parseIntNoSign l).map (fun n => (n : Int))

/-! ## JavaScript `String.prototype.split` -/

/-- Worker for `split` with a non-empty separator `c :: cs`: `acc` is the
current field, reversed.  Occurrences are found left to right and are
non-overlapping, as in JavaScript. -/
def splitSepGo (c : Char) (cs : List Char) : List Char → List Char → List (List Char)
  | acc, [] => [acc.reverse]
  | acc, x :: xs =>
    if (c :: cs).isPrefixOf (x :: xs) then
      acc.reverse :: splitSepGo c cs [] (xs.drop cs.length)
    else splitSepGo c cs (x :: acc) xs
termination_by _ l => l.length
decreasing_by
  all_goals simp_wf
  all_goals omega

/-- `split` with a single-character separator, written with structural
recursion so that it is kernel-computable. -/
def splitChar (c : Char) : List Char → List (List Char)
  | [] => [[]]
  | x :: xs =>
    if x = c then [] :: splitChar c xs
    else match splitChar c xs with
      | [] => [[x]]
      | h :: t => (x :: h) :: t

/-- `split` with a two-character separator `a b`, scanning left to right
with non-overlapping matches, as in JavaScript.  The result of the
recursive call is always non-empty, so prepending to its head via
`headD`/`tail` is exact. -/
def splitSep2 (a b : Char) : List Char → List (List Char)
  | [] => [[]]
  | [x] => [[x]]
  | x :: y :: xs =>
    if x = a ∧ y = b then [] :: splitSep2 a b xs
    else
      (x :: (splitSep2 a b (y :: xs)).headD []) :: (splitSep2 a b (y :: xs)).tail

/-- JavaScript `s.split(sep)`.  The source only splits on `","` and `"__"`
(and the specification's reconstruction splits on `"."`), so the
one- and two-character branches are the ones exercised. -/
def jsSplit (s sep : String) : List String :=
  match sep.data with
  | [] => s.data.map (fun ch => String.mk [ch])
  | [c] => (splitChar c s.data).map String.mk
  | [a, b] => (splitSep2 a b s.data).map String.mk
  | c :: cs => (splitSepGo c cs [] s.data).map String.mk

/-- No occurrence of the two-character separator `a b` inside `l`
(adjacent pair scan, mirroring `splitSep2`). -/
def noSep2 (a b : Char) : List Char → Bool
  | [] => true
  | [_] => true
  | x :: y :: xs => !(x == a && y == b) && noSep2 a b (y :: xs)

/-- ASCII-pointwise `toLowerCase` (all strings the claims touch are ASCII). -/
def jsToLower (s : String) : String := String.mk (s.data.map Char.toLower)

/-- JavaScript `s.endsWith(suf)`, at the character-list level (Lean core's
`String.endsWith` is not kernel-computable). -/
def jsEndsWith (s suf : String) : Bool := suf.data.isSuffixOf s.data

/-! ## The query translator (GET /get-data handler of the source) -/

/-- A converted scalar query value: number, boolean or string. -/
inductive JSValue where
  | num (n : JSNum)
  | bool (b : Bool)
  | str (s : String)
deriving DecidableEq

/-- Per-token type inference of the source:
`if (!isNaN(val)) return Number(val); if (val === 'true') return true;
if (val === 'false') return false; return val;`. -/
def convertToken (val : String) : JSValue :=
  match jsStringToNumber val with
  | some n => .num n
  | none =>
    if val = "true" then .bool true
    else if val = "false" then .bool false
    else .str val

/-- `rawFilters[key].split(',')` mapped through `convertToken`. -/
def convertedTokens (raw : String) : List JSValue :=
  (jsSplit raw ",").map convertToken

/-- A single filter entry: direct equality, a `$in` list, or `$exists`. -/
inductive FilterVal where
  | eqVal (v : JSValue)
  | inVals (vs : List JSValue)
  | existsVal (b : Bool)
deriving DecidableEq

/-- `converted.length === 1 ? converted[0] : { $in: converted }`. -/
def filterValue (raw : String) : FilterVal :=
  match convertedTokens raw with
  | [v] => .eqVal v
  | vs => .inVals vs

/-- `key.split('__')[0]` (the `split` of a non-empty string is non-empty,
so the JavaScript index `[0]` is total). -/
def existsField (key : String) : String :=
  match jsSplit key "__" with
  | [] => ""
  | f :: _ => f

def reservedKeys : List String := ["collection", "limit", "sortBy", "sortOrder"]

/-- The filter-building loop of the handler, over the raw (non-reserved)
query parameters in iteration order. -/
def buildFilter (rawFilters : List (String × String)) : List (String × FilterVal) :=
  rawFilters.foldl (fun acc kv =>
    if reservedKeys.contains kv.1 then acc
    else if jsEndsWith kv.1 "__exists" then
      setKeyP acc (existsField kv.1) (.existsVal (kv.2 == "true"))
    else setKeyP acc kv.1 (filterValue kv.2)) []

/-- `let sortObj = {}; if (sortBy) sortObj[sortBy] = sortOrder.toLowerCase()
=== 'desc' ? -1 : 1;` — `sortBy` is `none` when absent, and the empty
string is falsy in JavaScript. -/
def sortObjOf (sortBy : Option String) (sortOrder : String) : List (String × Int) :=
  match sortBy with
  | none => []
  | some s => if s = "" then [] else [(s, if jsToLower sortOrder = "desc" then -1 else 1)]

/-- `const parsedLimit = limit ? parseInt(limit) : 50;` — `none` models a
`NaN` result of `parseInt`. -/
def parsedLimitOf (limit : Option String) : Option Int :=
  match limit with
  | none => some 50
  | some s => if s = "" then some 50 else jsParseInt s

/-! ## JSON trees (the update payload)

A mutual inductive family is used instead of a nested `List` so that all
recursions below are structural and hence kernel-computable.  Arrays are
never traversed by the source, but their elements are still modelled. -/

mutual
inductive Json where
  | null
  | bool (b : Bool)
  | num (q : ℚ)
  | str (s : String)
  | arr (elems : JsonList)
  | obj (fields : JsonFields)
deriving DecidableEq

inductive JsonList where
  | nil
  | cons (hd : Json) (tl : JsonList)
deriving DecidableEq

inductive JsonFields where
  | nil
  | cons (key : String) (val : Json) (tl : JsonFields)
deriving DecidableEq
end

def JsonFields.toList : JsonFields → List (String × Json)
  | .nil => []
  | .cons k v rest => (k, v) :: rest.toList

def JsonFields.ofList : List (String × Json) → JsonFields
  | [] => .nil
  | (k, v) :: rest => .cons k v (ofList rest)

def JsonFields.keys : JsonFields → List String
  | .nil => []
  | .cons k _ rest => k :: rest.keys

/-! ## The update normalizer (`flattenObject` of the source)

```js
const flattenObject = (obj, prefix = '') => {
    return Object.keys(obj).reduce((acc, key) => {
        const value = obj[key];
        const newKey = prefix ? `${prefix}.${key}` : key;
        if (value && typeof value === 'object' && !Array.isArray(value)) {
            Object.assign(acc, flattenObject(value, newKey));
        } else {
            acc[newKey] = value;
        }
        return acc;
    }, {});
};
```
`null` is falsy and arrays are excluded, so only plain objects recurse. -/

/-- ``prefix ? `${prefix}.${key}` : key``. -/
def joinKey (pre k : String) : String :=
  if pre = "" then k else pre ++ "." ++ k

mutual
/-- One iteration of the `reduce` body for the value `v` at `newKey`. -/
def flattenStep (acc : List (String × Json)) (newKey : String) : Json → List (String × Json)
  | .obj ch => assignAll acc (flattenGo ch newKey [])
  | v => setKeyP acc newKey v

/-- The `reduce` over the fields of an object, with accumulator `acc`. -/
def flattenGo : JsonFields → String → List (String × Json) → List (String × Json)
  | .nil, _, acc => acc
  | .cons k v rest, pre, acc => flattenGo rest pre (flattenStep acc (joinKey pre k) v)
end

def flattenObject (fields : JsonFields) (pre : String) : List (String × Json) :=
  flattenGo fields pre []

/-! ## Request handlers (modelled on `src/unnamed/part_000`)

The document store is an explicit collaborator, passed as a function; a
`.error` result models a rejected promise (the `catch` branch). -/

structure FindQuery where
  filter : List (String × FilterVal)
  sort : List (String × Int)
  limit : Option Int

inductive RespBody where
  | getSuccess (data : List Json)
  | updateSuccess (data : Json)
  | deleteSuccess (message : String)
  | failMsg (message : String)
  | failErr (error : String)

structure HttpResp where
  status : Nat
  body : RespBody

/- The response message strings below follow the source, with the single
quotes around parameter names omitted. -/

/-- The translation part of the GET handler: filter, sort and limit as
functions of the parsed query parameters. -/
def translateQuery (params : List (String × String)) : FindQuery where
  filter := buildFilter (params.filter (fun kv => !(reservedKeys.contains kv.1)))
  sort := sortObjOf (lookupP params "sortBy") ((lookupP params "sortOrder").getD "asc")
  limit := parsedLimitOf (lookupP params "limit")

/-- `GET /get-data`.  `!collection` is true in JavaScript both for an
absent parameter and for the empty string. -/
def getData (params : List (String × String))
    (store : FindQuery → Except String (List Json)) : HttpResp :=
  if (lookupP params "collection").getD "" = "" then
    ⟨400, .failMsg "Missing required collection parameter."⟩
  else
    match store (translateQuery params) with
    | .ok docs => ⟨200, .getSuccess docs⟩
    | .error m => ⟨500, .failErr m⟩

/-- `PUT /update-document`: the store receives the identifier and the raw
update payload and yields the updated document, `none` when no document
matches the identifier. -/
def updateDocument (params : List (String × String)) (body : Json)
    (store : String → Json → Except String (Option Json)) : HttpResp :=
  let collection := (lookupP params "collection").getD ""
  let id := (lookupP params "id").getD ""
  if collection = "" ∨ id = "" then
    ⟨400, .failMsg "Missing collection or id in query."⟩
  else
    match store id body with
    | .ok (some doc) => ⟨200, .updateSuccess doc⟩
    | .ok none => ⟨404, .failMsg "Document not found."⟩
    | .error m => ⟨500, .failErr m⟩

/-- `DELETE /delete-document`. -/
def deleteDocument (params : List (String × String))
    (store : String → Except String (Option Json)) : HttpResp :=
  let collection := (lookupP params "collection").getD ""
  let id := (lookupP params "id").getD ""
  if collection = "" ∨ id = "" then
    ⟨400, .failMsg "Missing collection or id in query."⟩
  else
    match store id with
    | .ok (some _) => ⟨200, .deleteSuccess "Document deleted successfully."⟩
    | .ok none => ⟨404, .failMsg "Document not found."⟩
    | .error m => ⟨500, .failErr m⟩

/-! ## Analysis-side functions for the update normalizer

`flat1`/`flatF` are the overwrite-free form of `flattenStep`/`flattenGo`
(plain concatenation); `pairs1`/`pairsF` carry the tree path as the list
of its keys instead of a joined string. -/

mutual
def flat1 : Json → String → List (String × Json)
  | .obj ch, pre => flatF ch pre
  | v, pre => [(pre, v)]

def flatF : JsonFields → String → List (String × Json)
  | .nil, _ => []
  | .cons k v rest, pre => flat1 v (joinKey pre k) ++ flatF rest pre
end

mutual
def pairs1 : Json → List (List String × Json)
  | .obj ch => pairsF ch
  | v => [([], v)]

def pairsF : JsonFields → List (List String × Json)
  | .nil => []
  | .cons k v rest => (pairs1 v).map (fun pv => (k :: pv.1, pv.2)) ++ pairsF rest
end

/- The accumulated prefixes (in the sense of `flattenObject`'s `newKey`)
of all keys whose value is the empty object. -/
mutual
def eopS1 : Json → String → List String
  | .obj .nil, pre => [pre]
  | .obj ch, pre => eopSF ch pre
  | _, _ => []

def eopSF : JsonFields → String → List String
  | .nil, _ => []
  | .cons k v rest, pre => eopS1 v (joinKey pre k) ++ eopSF rest pre
end

/- The key-path (segment list) version of `eopSF`. -/
mutual
def eop1 : Json → List (List String)
  | .obj .nil => [[]]
  | .obj ch => eopF ch
  | _ => []

def eopF : JsonFields → List (List String)
  | .nil => []
  | .cons k v rest => (eop1 v).map (fun p => k :: p) ++ eopF rest
end

def noDotStr (s : String) : Bool := s.data.all (fun c => c != '.')

/- Keys throughout the tree are non-empty, dot-free and pairwise distinct
among siblings (the last holds automatically for parsed JSON). -/
mutual
def okKeysV : Json → Bool
  | .obj ch => okKeysF ch
  | _ => true

def okKeysF : JsonFields → Bool
  | .nil => true
  | .cons k v rest =>
      (k != "") && noDotStr k && !(rest.keys.contains k) && okKeysV v && okKeysF rest
end

/- No value anywhere in the tree is the empty object. -/
mutual
def neo1 : Json → Bool
  | .obj .nil => false
  | .obj ch => neoF ch
  | _ => true

def neoF : JsonFields → Bool
  | .nil => true
  | .cons _ v rest => neo1 v && neoF rest
end

/-- No value of the (top-level) field list is a plain object. -/
def noObjVals : JsonFields → Bool
  | .nil => true
  | .cons _ v rest =>
      (match v with
       | .obj _ => false
       | _ => true) && noObjVals rest

/-! ## Reconstruction of a nested object from a flat mapping

Modelled from the spec: the round-trip sentence reconstructs "the nested
object from the flat mapping by splitting on `.`"; the source has no such
function, so the natural left-to-right insertion is used: walk the
segments of each key, descending into existing object values and creating
fresh objects otherwise, and set the leaf value at the last segment. -/

def splitDots (s : String) : List String := jsSplit s "."

def insertSegs : List (String × Json) → List String → Json → List (String × Json)
  | m, [], _ => m
  | m, [k], v => setKeyP m k v
  | m, k :: p, v =>
      match lookupP m k with
      | some (.obj sub) => setKeyP m k (.obj (JsonFields.ofList (insertSegs sub.toList p v)))
      | _ => setKeyP m k (.obj (JsonFields.ofList (insertSegs [] p v)))

def unflatten (flat : List (String × Json)) : List (String × Json) :=
  flat.foldl (fun acc kv => insertSegs acc (splitDots kv.1) kv.2) []

/-- `q` extends `p` by at least one dot-separated segment (`p` is a strict
dot-path ancestor of `q`). -/
def dotAncestor (p q : String) : Prop := ∃ r, q = p ++ "." ++ r

/-! ## Association-list lemmas -/

theorem setKeyP_fresh {α : Type} :
    ∀ (m : List (String × α)) (k : String) (v : α),
      k ∉ m.map Prod.fst → setKeyP m k v = m ++ [(k, v)]
  | [], _, _, _ => rfl
  | (k0, v0) :: rest, k, v, h => by
      have hne : ¬(k0 = k) := by
        intro e; exact h (by simp [e])
      have h2 : k ∉ rest.map Prod.fst := by
        intro e; exact h (by simp [e])
      simp [setKeyP, hne, setKeyP_fresh rest k v h2]

theorem assignAll_fresh {α : Type} :
    ∀ (src m : List (String × α)),
      (src.map Prod.fst).Nodup →
      (∀ x ∈ src.map Prod.fst, x ∉ m.map Prod.fst) →
      assignAll m src = m ++ src
  | [], m, _, _ => by simp [assignAll]
  | (k, v) :: rest, m, h1, h2 => by
      have hk : k ∉ m.map Prod.fst := h2 k (by simp)
      have h1s : (k :: rest.map Prod.fst).Nodup := by simpa using h1
      have h1' : (rest.map Prod.fst).Nodup := h1s.of_cons
      have hkrest : k ∉ rest.map Prod.fst := (List.nodup_cons.mp h1s).1
      have h2' : ∀ x ∈ rest.map Prod.fst, x ∉ (m ++ [(k, v)]).map Prod.fst := by
        intro x hx
        simp only [List.map_append, List.mem_append]
        rintro (hm | hlast)
        · exact h2 x (by simp [hx]) hm
        · simp at hlast
          exact hkrest (hlast ▸ hx)
      calc assignAll m ((k, v) :: rest)
          = assignAll (setKeyP m k v) rest := rfl
        _ = assignAll (m ++ [(k, v)]) rest := by rw [setKeyP_fresh m k v hk]
        _ = (m ++ [(k, v)]) ++ rest := assignAll_fresh rest (m ++ [(k, v)]) h1' h2'
        _ = m ++ (k, v) :: rest := by simp

theorem lookupP_fresh {α : Type} :
    ∀ (m : List (String × α)) (k : String), k ∉ m.map Prod.fst → lookupP m k = none
  | [], _, _ => rfl
  | (k0, v0) :: rest, k, h => by
      have hne : ¬(k0 = k) := by
        intro e; exact h (by simp [e])
      have h2 : k ∉ rest.map Prod.fst := by
        intro e; exact h (by simp [e])
      simp [lookupP, hne, lookupP_fresh rest k h2]

theorem lookupP_append_last {α : Type} :
    ∀ (m : List (String × α)) (k : String) (v : α),
      k ∉ m.map Prod.fst → lookupP (m ++ [(k, v)]) k = some v
  | [], k, v, _ => by simp [lookupP]
  | (k0, v0) :: rest, k, v, h => by
      have hne : ¬(k0 = k) := by
        intro e; exact h (by simp [e])
      have h2 : k ∉ rest.map Prod.fst := by
        intro e; exact h (by simp [e])
      simp [lookupP, hne, lookupP_append_last rest k v h2]

theorem setKeyP_append_last {α : Type} :
    ∀ (m : List (String × α)) (k : String) (x y : α),
      k ∉ m.map Prod.fst → setKeyP (m ++ [(k, x)]) k y = m ++ [(k, y)]
  | [], k, x, y, _ => by simp [setKeyP, overwriteP]
  | (k0, v0) :: rest, k, x, y, h => by
      have hne : ¬(k0 = k) := by
        intro e; exact h (by simp [e])
      have h2 : k ∉ rest.map Prod.fst := by
        intro e; exact h (by simp [e])
      simp [setKeyP, hne, setKeyP_append_last rest k x y h2]

/-! ## The overwrite-free form of `flattenObject`

When all keys that the traversal produces are pairwise distinct and do
not yet occur in the accumulator, every assignment appends, and the
`reduce`/`Object.assign` recursion coincides with plain concatenation. -/

mutual
theorem flattenStep_eq : ∀ (v : Json) (nk : String) (acc : List (String × Json)),
    ((flat1 v nk).map Prod.fst).Nodup →
    (∀ x ∈ (flat1 v nk).map Prod.fst, x ∉ acc.map Prod.fst) →
    flattenStep acc nk v = acc ++ flat1 v nk
  | .null, nk, acc, _, h2 => by
      simp only [flattenStep, flat1]
      exact setKeyP_fresh acc nk .null (h2 nk (by simp [flat1]))
  | .bool b, nk, acc, _, h2 => by
      simp only [flattenStep, flat1]
      exact setKeyP_fresh acc nk (.bool b) (h2 nk (by simp [flat1]))
  | .num q, nk, acc, _, h2 => by
      simp only [flattenStep, flat1]
      exact setKeyP_fresh acc nk (.num q) (h2 nk (by simp [flat1]))
  | .str s, nk, acc, _, h2 => by
      simp only [flattenStep, flat1]
      exact setKeyP_fresh acc nk (.str s) (h2 nk (by simp [flat1]))
  | .arr xs, nk, acc, _, h2 => by
      simp only [flattenStep, flat1]
      exact setKeyP_fresh acc nk (.arr xs) (h2 nk (by simp [flat1]))
  | .obj ch, nk, acc, h1, h2 => by
      simp only [flattenStep, flat1] at h1 h2 ⊢
      rw [flattenGo_eq ch nk [] h1 (by simp)]
      simpa using assignAll_fresh (flatF ch nk) acc h1 h2

theorem flattenGo_eq : ∀ (f : JsonFields) (pre : String) (acc : List (String × Json)),
    ((flatF f pre).map Prod.fst).Nodup →
    (∀ x ∈ (flatF f pre).map Prod.fst, x ∉ acc.map Prod.fst) →
    flattenGo f pre acc = acc ++ flatF f pre
  | .nil, pre, acc, _, _ => by simp [flattenGo, flatF]
  | .cons k v rest, pre, acc, h1, h2 => by
      simp only [flattenGo, flatF] at h1 h2 ⊢
      rw [List.map_append, List.nodup_append] at h1
      obtain ⟨hn1, hn2, hdisj⟩ := h1
      have hstep := flattenStep_eq v (joinKey pre k) acc hn1
        (fun x hx => h2 x (by simp [hx]))
      rw [hstep]
      have h2' : ∀ x ∈ (flatF rest pre).map Prod.fst,
          x ∉ (acc ++ flat1 v (joinKey pre k)).map Prod.fst := by
        intro x hx
        simp only [List.map_append, List.mem_append]
        rintro (hm | hm)
        · exact h2 x (by simp [hx]) hm
        · exact hdisj hm hx
      rw [flattenGo_eq rest pre (acc ++ flat1 v (joinKey pre k)) hn2 h2']
      simp
end

/-! ## Joined key strings and key paths -/

/-- The key accumulated by `flattenObject` along a path of keys `p`,
starting from prefix `pre`. -/
def joinAll (pre : String) (p : List String) : String := p.foldl joinKey pre

theorem strData_inj {a b : String} (h : a.data = b.data) : a = b := by
  cases a; cases b; cases h; rfl

mutual
theorem flat1_pairs : ∀ (v : Json) (pre : String),
    flat1 v pre = (pairs1 v).map (fun pv => (joinAll pre pv.1, pv.2))
  | .null, pre => rfl
  | .bool _, pre => rfl
  | .num _, pre => rfl
  | .str _, pre => rfl
  | .arr _, pre => rfl
  | .obj ch, pre => by
      simp only [flat1, pairs1]
      exact flatF_pairs ch pre

theorem flatF_pairs : ∀ (f : JsonFields) (pre : String),
    flatF f pre = (pairsF f).map (fun pv => (joinAll pre pv.1, pv.2))
  | .nil, pre => rfl
  | .cons k v rest, pre => by
      simp only [flatF, pairsF, List.map_append, List.map_map]
      rw [flat1_pairs v (joinKey pre k), flatF_pairs rest pre]
      rfl
end

/-- A usable key segment: non-empty and dot-free. -/
def segOK (s : String) : Bool := (s != "") && noDotStr s

/-- The dot-prefixed character-level join of a key path. -/
def dJoin : List String → List Char
  | [] => []
  | s :: rest => '.' :: s.data ++ dJoin rest

theorem dJoin_append : ∀ (l1 l2 : List String), dJoin (l1 ++ l2) = dJoin l1 ++ dJoin l2
  | [], _ => rfl
  | s :: rest, l2 => by simp [dJoin, dJoin_append rest l2]

/-- Dot-started or empty. -/
def dse (z : List Char) : Prop := z = [] ∨ ∃ w, z = '.' :: w

theorem dJoin_dse (l : List String) : dse (dJoin l) := by
  cases l with
  | nil => exact Or.inl rfl
  | cons s rest => exact Or.inr ⟨s.data ++ dJoin rest, rfl⟩

theorem dse_append_dot (z w : List Char) (h : dse z) : dse (z ++ '.' :: w) := by
  rcases h with h | ⟨w0, h⟩
  · subst h; exact Or.inr ⟨w, rfl⟩
  · subst h; exact Or.inr ⟨w0 ++ '.' :: w, by simp⟩

theorem joinAll_ne_empty : ∀ (p : List String) (pre : String), pre ≠ "" → joinAll pre p ≠ ""
  | [], pre, h => h
  | s :: rest, pre, h => by
      have hd : (pre ++ "." ++ s).data = pre.data ++ '.' :: s.data := by simp
      have hne : pre ++ "." ++ s ≠ "" := by
        intro e
        have : (pre ++ "." ++ s).data = [] := by rw [e]
        rw [hd] at this
        rcases pre.data with _ | ⟨c, cs⟩ <;> simp_all
      have : joinAll (joinKey pre s) rest ≠ "" := by
        rw [joinKey, if_neg h]
        exact joinAll_ne_empty rest (pre ++ "." ++ s) hne
      exact this

theorem joinAll_data : ∀ (p : List String) (pre : String), pre ≠ "" →
    (joinAll pre p).data = pre.data ++ dJoin p
  | [], pre, _ => by simp [joinAll, dJoin]
  | s :: rest, pre, h => by
      have hne : pre ++ "." ++ s ≠ "" := by
        intro e
        have h2 : (pre ++ "." ++ s).data = [] := by rw [e]
        simp at h2
      have step : joinAll pre (s :: rest) = joinAll (pre ++ "." ++ s) rest := by
        simp [joinAll, joinKey, if_neg h]
      rw [step, joinAll_data rest (pre ++ "." ++ s) hne]
      simp [dJoin]

/-- Cancellation across a dot boundary: if two dot-free non-empty segments
are each followed by dot-started-or-empty tails and the concatenations
agree, the segments and the tails agree. -/
theorem sepCancel : ∀ (u v x y : List Char),
    u ≠ [] → v ≠ [] → (∀ c ∈ u, c ≠ '.') → (∀ c ∈ v, c ≠ '.') →
    dse x → dse y → u ++ x = v ++ y → u = v ∧ x = y
  | [], _, _, _, hu, _, _, _, _, _, _ => absurd rfl hu
  | _ :: _, [], _, _, _, hv, _, _, _, _, _ => absurd rfl hv
  | a :: u, b :: v, x, y, _, _, hud, hvd, hx, hy, heq => by
      simp only [List.cons_append, List.cons.injEq] at heq
      obtain ⟨hab, htail⟩ := heq
      subst hab
      cases u with
      | nil =>
        cases v with
        | nil => exact ⟨rfl, by simpa using htail⟩
        | cons c v' =>
          exfalso
          simp only [List.nil_append, List.cons_append] at htail
          rcases hx with hx | ⟨w, hx⟩
          · rw [hx] at htail; exact (List.cons_ne_nil _ _) htail.symm
          · rw [hx] at htail
            have : c = '.' := by
              have := htail
              simp only [List.cons.injEq] at this
              exact this.1.symm
            exact hvd c (by simp) this
      | cons a' u' =>
        cases v with
        | nil =>
          exfalso
          simp only [List.nil_append, List.cons_append] at htail
          rcases hy with hy | ⟨w, hy⟩
          · rw [hy] at htail; exact (List.cons_ne_nil _ _) htail
          · rw [hy] at htail
            have : a' = '.' := by
              simp only [List.cons.injEq] at htail
              exact htail.1
            exact hud a' (by simp) this
        | cons b' v' =>
          have hres := sepCancel (a' :: u') (b' :: v') x y (by simp) (by simp)
            (fun c hc => hud c (by simp [List.mem_cons] at hc ⊢; tauto))
            (fun c hc => hvd c (by simp [List.mem_cons] at hc ⊢; tauto))
            hx hy (by simpa using htail)
          exact ⟨by rw [hres.1], hres.2⟩

theorem segOK_data_ne {s : String} (h : segOK s = true) : s.data ≠ [] := by
  intro e
  have : s = "" := strData_inj (by simpa using e)
  simp [segOK, this] at h

theorem segOK_nodot {s : String} (h : segOK s = true) : ∀ c ∈ s.data, c ≠ '.' := by
  intro c hc
  have h2 : noDotStr s = true := by
    simp [segOK, Bool.and_eq_true] at h
    exact h.2
  simp only [noDotStr, List.all_eq_true] at h2
  simpa using h2 c hc

/-- Character-level divergence: two key paths that agree on a common stem
`t` and then differ in their next segment join to incomparable strings
(neither equal nor extending the other across a dot). -/
theorem dJoinDiv : ∀ (t : List String) (a b : String) (p q : List String),
    segOK a = true → segOK b = true → a ≠ b →
    dJoin (t ++ a :: p) ≠ dJoin (t ++ b :: q) ∧
    (∀ w, dJoin (t ++ b :: q) ≠ dJoin (t ++ a :: p) ++ '.' :: w) ∧
    (∀ w, dJoin (t ++ a :: p) ≠ dJoin (t ++ b :: q) ++ '.' :: w)
  | [], a, b, p, q, ha, hb, hab => by
      refine ⟨?_, ?_, ?_⟩
      · intro h
        simp only [List.nil_append, dJoin, List.cons_append, List.cons.injEq] at h
        have := sepCancel a.data b.data (dJoin p) (dJoin q) (segOK_data_ne ha)
          (segOK_data_ne hb) (segOK_nodot ha) (segOK_nodot hb)
          (dJoin_dse p) (dJoin_dse q) (by simpa using h)
        exact hab (strData_inj this.1)
      · intro w h
        simp only [List.nil_append, dJoin, List.cons_append, List.cons.injEq] at h
        have h2 : b.data ++ dJoin q = a.data ++ (dJoin p ++ '.' :: w) := by
          simpa [List.append_assoc] using h
        have := sepCancel b.data a.data (dJoin q) (dJoin p ++ '.' :: w)
          (segOK_data_ne hb) (segOK_data_ne ha) (segOK_nodot hb) (segOK_nodot ha)
          (dJoin_dse q) (dse_append_dot (dJoin p) w (dJoin_dse p)) h2
        exact hab (strData_inj this.1.symm)
      · intro w h
        simp only [List.nil_append, dJoin, List.cons_append, List.cons.injEq] at h
        have h2 : a.data ++ dJoin p = b.data ++ (dJoin q ++ '.' :: w) := by
          simpa [List.append_assoc] using h
        have := sepCancel a.data b.data (dJoin p) (dJoin q ++ '.' :: w)
          (segOK_data_ne ha) (segOK_data_ne hb) (segOK_nodot ha) (segOK_nodot hb)
          (dJoin_dse p) (dse_append_dot (dJoin q) w (dJoin_dse q)) h2
        exact hab (strData_inj this.1)
  | s :: t, a, b, p, q, ha, hb, hab => by
      obtain ⟨ih1, ih2, ih3⟩ := dJoinDiv t a b p q ha hb hab
      refine ⟨?_, ?_, ?_⟩
      · intro h
        simp only [List.cons_append, dJoin, List.cons.injEq, List.append_assoc, true_and] at h
        exact ih1 (List.append_cancel_left h)
      · intro w h
        simp only [List.cons_append, dJoin, List.cons.injEq, List.append_assoc, true_and] at h
        exact ih2 w (List.append_cancel_left h)
      · intro w h
        simp only [List.cons_append, dJoin, List.cons.injEq, List.append_assoc, true_and] at h
        exact ih3 w (List.append_cancel_left h)

theorem joinAll_top (k : String) (rest : List String) :
    joinAll "" (k :: rest) = joinAll k rest := by
  simp [joinAll, joinKey]

theorem dotAncestor_data {x y : String} (h : dotAncestor x y) :
    ∃ w, y.data = x.data ++ '.' :: w := by
  obtain ⟨r, hr⟩ := h
  exact ⟨r.data, by rw [hr]; simp⟩

/-- String-level divergence for the joined keys of two diverging paths. -/
theorem joinDiv : ∀ (t : List String) (a b : String) (p q : List String),
    (∀ s ∈ t, segOK s = true) → segOK a = true → segOK b = true → a ≠ b →
    joinAll "" (t ++ a :: p) ≠ joinAll "" (t ++ b :: q) ∧
    ¬ dotAncestor (joinAll "" (t ++ a :: p)) (joinAll "" (t ++ b :: q)) ∧
    ¬ dotAncestor (joinAll "" (t ++ b :: q)) (joinAll "" (t ++ a :: p))
  | [], a, b, p, q, _, ha, hb, hab => by
      have hxd : (joinAll "" (a :: p)).data = a.data ++ dJoin p := by
        rw [joinAll_top]
        exact joinAll_data p a (fun e => segOK_data_ne ha (by rw [e]))
      have hyd : (joinAll "" (b :: q)).data = b.data ++ dJoin q := by
        rw [joinAll_top]
        exact joinAll_data q b (fun e => segOK_data_ne hb (by rw [e]))
      simp only [List.nil_append]
      refine ⟨?_, ?_, ?_⟩
      · intro h
        have hd : a.data ++ dJoin p = b.data ++ dJoin q := by
          rw [← hxd, ← hyd, h]
        have := sepCancel a.data b.data (dJoin p) (dJoin q) (segOK_data_ne ha)
          (segOK_data_ne hb) (segOK_nodot ha) (segOK_nodot hb)
          (dJoin_dse p) (dJoin_dse q) hd
        exact hab (strData_inj this.1)
      · intro h
        obtain ⟨w, hw⟩ := dotAncestor_data h
        rw [hxd, hyd] at hw
        have h2 : b.data ++ dJoin q = a.data ++ (dJoin p ++ '.' :: w) := by
          simpa [List.append_assoc] using hw
        have := sepCancel b.data a.data (dJoin q) (dJoin p ++ '.' :: w)
          (segOK_data_ne hb) (segOK_data_ne ha) (segOK_nodot hb) (segOK_nodot ha)
          (dJoin_dse q) (dse_append_dot (dJoin p) w (dJoin_dse p)) h2
        exact hab (strData_inj this.1.symm)
      · intro h
        obtain ⟨w, hw⟩ := dotAncestor_data h
        rw [hxd, hyd] at hw
        have h2 : a.data ++ dJoin p = b.data ++ (dJoin q ++ '.' :: w) := by
          simpa [List.append_assoc] using hw
        have := sepCancel a.data b.data (dJoin p) (dJoin q ++ '.' :: w)
          (segOK_data_ne ha) (segOK_data_ne hb) (segOK_nodot ha) (segOK_nodot hb)
          (dJoin_dse p) (dse_append_dot (dJoin q) w (dJoin_dse q)) h2
        exact hab (strData_inj this.1)
  | s :: t, a, b, p, q, hts, ha, hb, hab => by
      have hs : segOK s = true := hts s (by simp)
      have hsne : s ≠ "" := fun e => segOK_data_ne hs (by rw [e])
      have hxd : (joinAll "" (s :: (t ++ a :: p))).data = s.data ++ dJoin (t ++ a :: p) := by
        rw [joinAll_top]; exact joinAll_data (t ++ a :: p) s hsne
      have hyd : (joinAll "" (s :: (t ++ b :: q))).data = s.data ++ dJoin (t ++ b :: q) := by
        rw [joinAll_top]; exact joinAll_data (t ++ b :: q) s hsne
      obtain ⟨ih1, ih2, ih3⟩ := dJoinDiv t a b p q ha hb hab
      simp only [List.cons_append]
      refine ⟨?_, ?_, ?_⟩
      · intro h
        have hd := hxd ▸ hyd ▸ congrArg String.data h
        exact ih1 (List.append_cancel_left hd)
      · intro h
        obtain ⟨w, hw⟩ := dotAncestor_data h
        rw [hxd, hyd, List.append_assoc] at hw
        exact ih2 w (List.append_cancel_left hw)
      · intro h
        obtain ⟨w, hw⟩ := dotAncestor_data h
        rw [hxd, hyd, List.append_assoc] at hw
        exact ih3 w (List.append_cancel_left hw)

/-! ## Pairwise divergence of tree paths -/

/-- Two key paths diverge: they share a stem and then disagree on the
next segment, both paths continuing at that point. -/
def Diverge (p q : List String) : Prop :=
  ∃ t a b p' q', a ≠ b ∧ p = t ++ a :: p' ∧ q = t ++ b :: q'

theorem Diverge.consSame (k : String) {p q : List String} (h : Diverge p q) :
    Diverge (k :: p) (k :: q) := by
  obtain ⟨t, a, b, p', q', hab, hp, hq⟩ := h
  exact ⟨k :: t, a, b, p', q', hab, by simp [hp], by simp [hq]⟩

theorem Diverge.headNe {a b : String} (p q : List String) (h : a ≠ b) :
    Diverge (a :: p) (b :: q) := ⟨[], a, b, p, q, h, rfl, rfl⟩

theorem Diverge.symm {p q : List String} (h : Diverge p q) : Diverge q p := by
  obtain ⟨t, a, b, p', q', hab, hp, hq⟩ := h
  exact ⟨t, b, a, q', p', hab.symm, hq, hp⟩

theorem okKeysF_cons {k : String} {v : Json} {rest : JsonFields}
    (h : okKeysF (.cons k v rest) = true) :
    segOK k = true ∧ k ∉ rest.keys ∧ okKeysV v = true ∧ okKeysF rest = true := by
  simp only [okKeysF, Bool.and_eq_true, Bool.not_eq_true'] at h
  obtain ⟨⟨⟨⟨h1, h2⟩, h3⟩, h4⟩, h5⟩ := h
  refine ⟨?_, ?_, h4, h5⟩
  · simp only [segOK, Bool.and_eq_true]
    exact ⟨h1, h2⟩
  · intro hmem
    rw [List.contains_eq_any_beq] at h3
    simp only [List.any_eq_false] at h3
    exact absurd (by simp) (h3 k hmem)

theorem pairsF_head : ∀ (f : JsonFields), ∀ pv ∈ pairsF f,
    ∃ k' t', pv.1 = k' :: t' ∧ k' ∈ f.keys
  | .nil, pv, h => absurd h (by simp [pairsF])
  | .cons k v rest, pv, h => by
      simp only [pairsF, List.mem_append] at h
      rcases h with h | h
      · obtain ⟨pv', _, rfl⟩ := List.mem_map.mp h
        exact ⟨k, pv'.1, rfl, by simp [JsonFields.keys]⟩
      · obtain ⟨k', t', h1, h2⟩ := pairsF_head rest pv h
        exact ⟨k', t', h1, by simp [JsonFields.keys, h2]⟩

theorem eopF_head : ∀ (f : JsonFields), ∀ ep ∈ eopF f,
    ∃ k' t', ep = k' :: t' ∧ k' ∈ f.keys
  | .nil, ep, h => absurd h (by simp [eopF])
  | .cons k v rest, ep, h => by
      simp only [eopF, List.mem_append] at h
      rcases h with h | h
      · obtain ⟨p', _, rfl⟩ := List.mem_map.mp h
        exact ⟨k, p', rfl, by simp [JsonFields.keys]⟩
      · obtain ⟨k', t', h1, h2⟩ := eopF_head rest ep h
        exact ⟨k', t', h1, by simp [JsonFields.keys, h2]⟩

mutual
theorem pairs1_segOK : ∀ (v : Json), okKeysV v = true →
    ∀ pv ∈ pairs1 v, ∀ s ∈ pv.1, segOK s = true
  | .null, _, pv, hm, s, hs => by simp [pairs1] at hm; simp [hm] at hs
  | .bool _, _, pv, hm, s, hs => by simp [pairs1] at hm; simp [hm] at hs
  | .num _, _, pv, hm, s, hs => by simp [pairs1] at hm; simp [hm] at hs
  | .str _, _, pv, hm, s, hs => by simp [pairs1] at hm; simp [hm] at hs
  | .arr _, _, pv, hm, s, hs => by simp [pairs1] at hm; simp [hm] at hs
  | .obj ch, h, pv, hm, s, hs => by
      simp only [pairs1] at hm
      exact pairsF_segOK ch (by simpa [okKeysV] using h) pv hm s hs

theorem pairsF_segOK : ∀ (f : JsonFields), okKeysF f = true →
    ∀ pv ∈ pairsF f, ∀ s ∈ pv.1, segOK s = true
  | .nil, _, pv, hm, _, _ => absurd hm (by simp [pairsF])
  | .cons k v rest, h, pv, hm, s, hs => by
      obtain ⟨hk, _, hv, hrest⟩ := okKeysF_cons h
      simp only [pairsF, List.mem_append] at hm
      rcases hm with hm | hm
      · obtain ⟨pv', hpv', rfl⟩ := List.mem_map.mp hm
        simp only [List.mem_cons] at hs
        rcases hs with rfl | hs
        · exact hk
        · exact pairs1_segOK v hv pv' hpv' s hs
      · exact pairsF_segOK rest hrest pv hm s hs
end

mutual
theorem eop1_segOK : ∀ (v : Json), okKeysV v = true →
    ∀ ep ∈ eop1 v, ∀ s ∈ ep, segOK s = true
  | .null, _, ep, hm, s, hs => by simp [eop1] at hm
  | .bool _, _, ep, hm, s, hs => by simp [eop1] at hm
  | .num _, _, ep, hm, s, hs => by simp [eop1] at hm
  | .str _, _, ep, hm, s, hs => by simp [eop1] at hm
  | .arr _, _, ep, hm, s, hs => by simp [eop1] at hm
  | .obj .nil, _, ep, hm, s, hs => by
      simp [eop1] at hm; simp [hm] at hs
  | .obj (.cons k v rest), h, ep, hm, s, hs => by
      simp only [eop1] at hm
      exact eopF_segOK (.cons k v rest) (by simpa [okKeysV] using h) ep hm s hs

theorem eopF_segOK : ∀ (f : JsonFields), okKeysF f = true →
    ∀ ep ∈ eopF f, ∀ s ∈ ep, segOK s = true
  | .nil, _, ep, hm, _, _ => absurd hm (by simp [eopF])
  | .cons k v rest, h, ep, hm, s, hs => by
      obtain ⟨hk, _, hv, hrest⟩ := okKeysF_cons h
      simp only [eopF, List.mem_append] at hm
      rcases hm with hm | hm
      · obtain ⟨p', hp', rfl⟩ := List.mem_map.mp hm
        simp only [List.mem_cons] at hs
        rcases hs with rfl | hs
        · exact hk
        · exact eop1_segOK v hv p' hp' s hs
      · exact eopF_segOK rest hrest ep hm s hs
end

mutual
theorem pairs1_div : ∀ (v : Json), okKeysV v = true →
    ((pairs1 v).map Prod.fst).Pairwise Diverge
  | .null, _ => by simp [pairs1]
  | .bool _, _ => by simp [pairs1]
  | .num _, _ => by simp [pairs1]
  | .str _, _ => by simp [pairs1]
  | .arr _, _ => by simp [pairs1]
  | .obj ch, h => by
      simp only [pairs1]
      exact pairsF_div ch (by simpa [okKeysV] using h)

theorem pairsF_div : ∀ (f : JsonFields), okKeysF f = true →
    ((pairsF f).map Prod.fst).Pairwise Diverge
  | .nil, _ => by simp [pairsF]
  | .cons k v rest, h => by
      obtain ⟨hk, hknot, hv, hrest⟩ := okKeysF_cons h
      simp only [pairsF, List.map_append, List.map_map]
      rw [List.pairwise_append]
      refine ⟨?_, pairsF_div rest hrest, ?_⟩
      · rw [List.pairwise_map]
        have := pairs1_div v hv
        rw [List.pairwise_map] at this
        exact this.imp (fun hpq => Diverge.consSame k hpq)
      · intro x hx y hy
        obtain ⟨pv', _, rfl⟩ := List.mem_map.mp hx
        obtain ⟨pv2, hpv2, rfl⟩ := List.mem_map.mp hy
        obtain ⟨k2, t2, heq, hk2⟩ := pairsF_head rest pv2 hpv2
        rw [heq]
        exact Diverge.headNe _ _ (fun e => hknot (e ▸ hk2))
end

mutual
theorem eop1_div : ∀ (v : Json), okKeysV v = true →
    ∀ ep ∈ eop1 v, ∀ pv ∈ pairs1 v, Diverge ep pv.1
  | .null, _, ep, hm, _, _ => by simp [eop1] at hm
  | .bool _, _, ep, hm, _, _ => by simp [eop1] at hm
  | .num _, _, ep, hm, _, _ => by simp [eop1] at hm
  | .str _, _, ep, hm, _, _ => by simp [eop1] at hm
  | .arr _, _, ep, hm, _, _ => by simp [eop1] at hm
  | .obj .nil, _, ep, hm, pv, hpv => by
      simp [eop1, pairs1, pairsF] at hm hpv
  | .obj (.cons k v rest), h, ep, hm, pv, hpv => by
      simp only [eop1, pairs1] at hm hpv
      exact eopF_div (.cons k v rest) (by simpa [okKeysV] using h) ep hm pv hpv

theorem eopF_div : ∀ (f : JsonFields), okKeysF f = true →
    ∀ ep ∈ eopF f, ∀ pv ∈ pairsF f, Diverge ep pv.1
  | .nil, _, ep, hm, _, _ => absurd hm (by simp [eopF])
  | .cons k v rest, h, ep, hm, pv, hpv => by
      obtain ⟨hk, hknot, hv, hrest⟩ := okKeysF_cons h
      simp only [eopF, pairsF, List.mem_append] at hm hpv
      rcases hm with hm | hm
      · obtain ⟨e', he', rfl⟩ := List.mem_map.mp hm
        rcases hpv with hpv | hpv
        · obtain ⟨pv', hpv', rfl⟩ := List.mem_map.mp hpv
          exact Diverge.consSame k (eop1_div v hv e' he' pv' hpv')
        · obtain ⟨k2, t2, heq, hk2⟩ := pairsF_head rest pv hpv
          rw [heq]
          exact Diverge.headNe _ _ (fun e => hknot (e ▸ hk2))
      · obtain ⟨k3, t3, heq3, hk3⟩ := eopF_head rest ep hm
        rcases hpv with hpv | hpv
        · obtain ⟨pv', hpv', rfl⟩ := List.mem_map.mp hpv
          rw [heq3]
          exact Diverge.headNe _ _ (fun e => hknot (e.symm ▸ hk3))
        · exact eopF_div rest hrest ep hm pv hpv
end

theorem joinDiv_of_diverge {p q : List String}
    (hp : ∀ s ∈ p, segOK s = true) (hq : ∀ s ∈ q, segOK s = true) (h : Diverge p q) :
    joinAll "" p ≠ joinAll "" q ∧
    ¬ dotAncestor (joinAll "" p) (joinAll "" q) ∧
    ¬ dotAncestor (joinAll "" q) (joinAll "" p) := by
  obtain ⟨t, a, b, p', q', hab, rfl, rfl⟩ := h
  exact joinDiv t a b p' q' (fun s hs => hp s (by simp [hs]))
    (hp a (by simp)) (hq b (by simp)) hab

mutual
theorem eopS1_join : ∀ (v : Json) (pre : String), eopS1 v pre = (eop1 v).map (joinAll pre)
  | .null, _ => rfl
  | .bool _, _ => rfl
  | .num _, _ => rfl
  | .str _, _ => rfl
  | .arr _, _ => rfl
  | .obj .nil, pre => rfl
  | .obj (.cons k v rest), pre => by
      simp only [eopS1, eop1]
      exact eopSF_join (.cons k v rest) pre

theorem eopSF_join : ∀ (f : JsonFields) (pre : String), eopSF f pre = (eopF f).map (joinAll pre)
  | .nil, _ => rfl
  | .cons k v rest, pre => by
      simp only [eopSF, eopF, List.map_append, List.map_map]
      rw [eopS1_join v (joinKey pre k), eopSF_join rest pre]
      rfl
end

theorem flatF_keys (f : JsonFields) (pre : String) :
    (flatF f pre).map Prod.fst = ((pairsF f).map Prod.fst).map (joinAll pre) := by
  rw [flatF_pairs]
  simp only [List.map_map]
  rfl

theorem flatF_keys_nodup (f : JsonFields) (h : okKeysF f = true) :
    ((flatF f "").map Prod.fst).Nodup := by
  rw [flatF_keys]
  show (((pairsF f).map Prod.fst).map (joinAll "")).Pairwise (· ≠ ·)
  rw [List.pairwise_map]
  refine List.Pairwise.imp_of_mem ?_ (pairsF_div f h)
  intro p q hp hq hdiv
  obtain ⟨pv1, hpv1, rfl⟩ := List.mem_map.mp hp
  obtain ⟨pv2, hpv2, rfl⟩ := List.mem_map.mp hq
  exact (joinDiv_of_diverge (pairsF_segOK f h pv1 hpv1) (pairsF_segOK f h pv2 hpv2) hdiv).1

theorem flattenObject_eq_flatF (f : JsonFields) (h : okKeysF f = true) :
    flattenObject f "" = flatF f "" := by
  unfold flattenObject
  rw [flattenGo_eq f "" [] (flatF_keys_nodup f h) (by simp)]
  simp

/-! ## Round-trip: reconstruction undoes flattening -/

theorem toList_ofList : ∀ (l : List (String × Json)), (JsonFields.ofList l).toList = l
  | [] => rfl
  | (k, v) :: rest => by simp [JsonFields.ofList, JsonFields.toList, toList_ofList rest]

theorem ofList_toList : ∀ (f : JsonFields), JsonFields.ofList f.toList = f
  | .nil => rfl
  | .cons k v rest => by simp [JsonFields.ofList, JsonFields.toList, ofList_toList rest]

mutual
theorem pairs1_ne : ∀ (v : Json), neo1 v = true → pairs1 v ≠ []
  | .null, _ => by simp [pairs1]
  | .bool _, _ => by simp [pairs1]
  | .num _, _ => by simp [pairs1]
  | .str _, _ => by simp [pairs1]
  | .arr _, _ => by simp [pairs1]
  | .obj .nil, h => by simp [neo1] at h
  | .obj (.cons k v rest), h => by
      simp only [pairs1]
      exact pairsF_ne (.cons k v rest) (by simpa [neo1] using h) (by simp)

theorem pairsF_ne : ∀ (f : JsonFields), neoF f = true → f ≠ .nil → pairsF f ≠ []
  | .nil, _, hne => absurd rfl hne
  | .cons k v rest, h, _ => by
      have hv : neo1 v = true := by
        simp [neoF, Bool.and_eq_true] at h
        exact h.1
      simp only [pairsF, ne_eq, List.append_eq_nil, List.map_eq_nil_iff, not_and]
      intro hp
      exact absurd hp (pairs1_ne v hv)
end

/-- Folding the insertions of a group of paths that all start with the
same head key `k`, once an object value for `k` sits at the end of the
accumulator: the insertions all land inside that object. -/
theorem insertSubGo (k : String) :
    ∀ (L : List (List String × Json)) (acc : List (String × Json)) (X : List (String × Json)),
      k ∉ acc.map Prod.fst → (∀ pv ∈ L, pv.1 ≠ []) →
      List.foldl (fun a pv => insertSegs a (k :: pv.1) pv.2)
          (acc ++ [(k, .obj (JsonFields.ofList X))]) L
        = acc ++ [(k, .obj (JsonFields.ofList
            (List.foldl (fun a pv => insertSegs a pv.1 pv.2) X L)))]
  | [], acc, X, _, _ => by simp
  | (p, v) :: L', acc, X, hk, hne => by
      obtain ⟨c, p', rfl⟩ := List.exists_cons_of_ne_nil (hne (p, v) (by simp))
      simp only [List.foldl_cons]
      have hstep : insertSegs (acc ++ [(k, .obj (JsonFields.ofList X))]) (k :: c :: p') v
          = acc ++ [(k, .obj (JsonFields.ofList (insertSegs X (c :: p') v)))] := by
        have hlook : lookupP (acc ++ [(k, .obj (JsonFields.ofList X))]) k
            = some (.obj (JsonFields.ofList X)) :=
          lookupP_append_last acc k _ hk
        simp only [insertSegs, hlook, toList_ofList]
        exact setKeyP_append_last acc k _ _ hk
      rw [hstep]
      rw [insertSubGo k L' acc (insertSegs X (c :: p') v) hk
        (fun pv hpv => hne pv (by simp [hpv]))]

mutual
/-- Inserting all flat pairs of a single value `v` under head key `k`
rebuilds exactly the binding `(k, v)` at the end of the accumulator. -/
theorem unflattenV : ∀ (v : Json) (k : String) (acc : List (String × Json)),
    okKeysV v = true → neo1 v = true → k ∉ acc.map Prod.fst →
    List.foldl (fun a pv => insertSegs a (k :: pv.1) pv.2) acc (pairs1 v) = acc ++ [(k, v)]
  | .null, k, acc, _, _, hk => by
      simp only [pairs1, List.foldl_cons, List.foldl_nil, insertSegs]
      exact setKeyP_fresh acc k _ hk
  | .bool b, k, acc, _, _, hk => by
      simp only [pairs1, List.foldl_cons, List.foldl_nil, insertSegs]
      exact setKeyP_fresh acc k _ hk
  | .num q, k, acc, _, _, hk => by
      simp only [pairs1, List.foldl_cons, List.foldl_nil, insertSegs]
      exact setKeyP_fresh acc k _ hk
  | .str s, k, acc, _, _, hk => by
      simp only [pairs1, List.foldl_cons, List.foldl_nil, insertSegs]
      exact setKeyP_fresh acc k _ hk
  | .arr xs, k, acc, _, _, hk => by
      simp only [pairs1, List.foldl_cons, List.foldl_nil, insertSegs]
      exact setKeyP_fresh acc k _ hk
  | .obj .nil, k, acc, _, hneo, hk => by simp [neo1] at hneo
  | .obj (.cons k1 v1 r1), k, acc, hok, hneo, hk => by
      have hokF : okKeysF (.cons k1 v1 r1) = true := by simpa [okKeysV] using hok
      have hneoF : neoF (.cons k1 v1 r1) = true := by simpa [neo1] using hneo
      have hpne : pairsF (.cons k1 v1 r1) ≠ [] := pairsF_ne _ hneoF (by simp)
      obtain ⟨hd, L', hL⟩ := List.exists_cons_of_ne_nil hpne
      have hdmem : hd ∈ pairsF (.cons k1 v1 r1) := by rw [hL]; simp
      obtain ⟨c, p', hhd, _⟩ := pairsF_head _ hd hdmem
      have hne' : ∀ pv ∈ L', pv.1 ≠ [] := by
        intro pv hpv
        have : pv ∈ pairsF (.cons k1 v1 r1) := by rw [hL]; simp [hpv]
        obtain ⟨c2, p2, h2, _⟩ := pairsF_head _ pv this
        simp [h2]
      simp only [pairs1, hL, List.foldl_cons]
      have hstep : insertSegs acc (k :: hd.1) hd.2
          = acc ++ [(k, .obj (JsonFields.ofList (insertSegs [] hd.1 hd.2)))] := by
        rw [hhd]
        have hlook : lookupP acc k = none := lookupP_fresh acc k hk
        simp only [insertSegs, hlook]
        exact setKeyP_fresh acc k _ hk
      rw [hstep,
        insertSubGo k L' acc (insertSegs [] hd.1 hd.2) hk hne']
      have hfold : List.foldl (fun a pv => insertSegs a pv.1 pv.2)
          (insertSegs [] hd.1 hd.2) L'
          = List.foldl (fun a pv => insertSegs a pv.1 pv.2) [] (pairsF (.cons k1 v1 r1)) := by
        rw [hL]; simp
      rw [hfold, unflattenF (.cons k1 v1 r1) [] hokF hneoF (by simp)]
      simp [ofList_toList]

/-- Inserting all flat pairs of a field list appends exactly its bindings. -/
theorem unflattenF : ∀ (f : JsonFields) (acc : List (String × Json)),
    okKeysF f = true → neoF f = true →
    (∀ x ∈ f.keys, x ∉ acc.map Prod.fst) →
    List.foldl (fun a pv => insertSegs a pv.1 pv.2) acc (pairsF f) = acc ++ f.toList
  | .nil, acc, _, _, _ => by simp [pairsF, JsonFields.toList]
  | .cons k v rest, acc, hok, hneo, hdisj => by
      obtain ⟨_, hknot, hv, hrest⟩ := okKeysF_cons hok
      have hneo1 : neo1 v = true := by
        simp [neoF, Bool.and_eq_true] at hneo
        exact hneo.1
      have hneorest : neoF rest = true := by
        simp [neoF, Bool.and_eq_true] at hneo
        exact hneo.2
      simp only [pairsF, List.foldl_append, List.foldl_map]
      rw [unflattenV v k acc hv hneo1 (hdisj k (by simp [JsonFields.keys]))]
      rw [unflattenF rest (acc ++ [(k, v)]) hrest hneorest ?_]
      · simp [JsonFields.toList]
      · intro x hx
        simp only [List.map_append, List.mem_append]
        rintro (hm | hm)
        · exact hdisj x (by simp [JsonFields.keys, hx]) hm
        · simp at hm
          exact hknot (hm ▸ hx)
end

/-! ## Splitting a joined key recovers its segments -/

theorem splitChar_nosep : ∀ (c : Char) (f : List Char), (∀ x ∈ f, x ≠ c) → splitChar c f = [f]
  | _, [], _ => rfl
  | c, x :: xs, h => by
      have hx : ¬(x = c) := h x (by simp)
      simp only [splitChar, if_neg hx, splitChar_nosep c xs (fun y hy => h y (by simp [hy]))]

theorem splitChar_sep : ∀ (c : Char) (f r : List Char), (∀ x ∈ f, x ≠ c) →
    splitChar c (f ++ c :: r) = f :: splitChar c r
  | c, [], r, _ => by simp [splitChar]
  | c, x :: f', r, h => by
      have hx : ¬(x = c) := h x (by simp)
      have ih := splitChar_sep c f' r (fun y hy => h y (by simp [hy]))
      simp only [List.cons_append, splitChar, if_neg hx, List.append_eq, ih]

theorem strMk_data (s : String) : String.mk s.data = s := rfl

theorem splitChar_dJoin : ∀ (p : List String) (kd : List Char),
    (∀ c ∈ kd, c ≠ '.') → (∀ s ∈ p, segOK s = true) →
    splitChar '.' (kd ++ dJoin p) = kd :: p.map String.data
  | [], kd, hkd, _ => by
      simpa [dJoin] using splitChar_nosep '.' kd hkd
  | s :: rest, kd, hkd, hp => by
      have hs : segOK s = true := hp s (by simp)
      have hsplit : splitChar '.' (kd ++ '.' :: (s.data ++ dJoin rest))
          = kd :: splitChar '.' (s.data ++ dJoin rest) := splitChar_sep '.' kd _ hkd
      have ih := splitChar_dJoin rest s.data (segOK_nodot hs)
        (fun u hu => hp u (by simp [hu]))
      simp only [dJoin, List.cons_append, List.append_assoc] at hsplit ⊢
      rw [hsplit, ih]
      simp

theorem map_mk_data : ∀ (p : List String), p.map (fun s => String.mk s.data) = p
  | [] => rfl
  | s :: rest => by simp [map_mk_data rest]

theorem splitDots_join (k : String) (p : List String)
    (hk : segOK k = true) (hp : ∀ s ∈ p, segOK s = true) :
    splitDots (joinAll "" (k :: p)) = k :: p := by
  have hdata : (joinAll "" (k :: p)).data = k.data ++ dJoin p := by
    rw [joinAll_top]
    exact joinAll_data p k (fun e => segOK_data_ne hk (by rw [e]))
  have hs : splitDots (joinAll "" (k :: p))
      = (splitChar '.' ((joinAll "" (k :: p)).data)).map String.mk := rfl
  rw [hs, hdata, splitChar_dJoin p k.data (segOK_nodot hk) hp]
  simp only [List.map_cons, List.map_map]
  exact congrArg (fun l => k :: l) (map_mk_data p)

theorem foldl_congr_mem {α β : Type} : ∀ (l : List β) (f g : α → β → α) (a : α),
    (∀ acc, ∀ x ∈ l, f acc x = g acc x) → l.foldl f a = l.foldl g a
  | [], _, _, _, _ => rfl
  | x :: xs, f, g, a, h => by
      simp only [List.foldl_cons]
      rw [h a x (by simp)]
      exact foldl_congr_mem xs f g (g a x) (fun acc y hy => h acc y (by simp [hy]))

/-- Round trip under the well-formedness conditions: flatten (starting at
the empty prefix) then rebuild by splitting each flat key on dots. -/
theorem unflatten_flattenObject (f : JsonFields)
    (h1 : okKeysF f = true) (h2 : neoF f = true) :
    unflatten (flattenObject f "") = f.toList := by
  rw [flattenObject_eq_flatF f h1, flatF_pairs]
  unfold unflatten
  rw [List.foldl_map]
  have hcong : ∀ (acc : List (String × Json)), ∀ pv ∈ pairsF f,
      insertSegs acc (splitDots (joinAll "" pv.1)) pv.2 = insertSegs acc pv.1 pv.2 := by
    intro acc pv hpv
    obtain ⟨c, p', hpv1, _⟩ := pairsF_head f pv hpv
    have hsegs := pairsF_segOK f h1 pv hpv
    rw [hpv1] at hsegs ⊢
    rw [splitDots_join c p' (hsegs c (by simp)) (fun s hs => hsegs s (by simp [hs]))]
  rw [foldl_congr_mem (pairsF f) _ _ [] hcong]
  rw [unflattenF f [] h1 h2 (by simp)]
  simp

/-! ## The identity behaviour on already-flat objects -/

theorem keys_toList : ∀ (f : JsonFields), f.toList.map Prod.fst = f.keys
  | .nil => rfl
  | .cons k v rest => by simp [JsonFields.toList, JsonFields.keys, keys_toList rest]

theorem flatF_flat : ∀ (f : JsonFields), noObjVals f = true → flatF f "" = f.toList
  | .nil, _ => rfl
  | .cons k v rest, h => by
      have hrest : noObjVals rest = true := by
        simp only [noObjVals, Bool.and_eq_true] at h
        exact h.2
      have hv : flat1 v (joinKey "" k) = [(k, v)] := by
        cases v with
        | obj ch => simp [noObjVals] at h
        | null => simp [flat1, joinKey]
        | bool b => simp [flat1, joinKey]
        | num q => simp [flat1, joinKey]
        | str s => simp [flat1, joinKey]
        | arr xs => simp [flat1, joinKey]
      simp only [flatF, hv, flatF_flat rest hrest, JsonFields.toList]
      rfl

theorem flattenObject_flat (f : JsonFields)
    (h1 : noObjVals f = true) (h2 : f.keys.Nodup) :
    flattenObject f "" = f.toList := by
  have hf := flatF_flat f h1
  have hnodup : ((flatF f "").map Prod.fst).Nodup := by
    rw [hf, keys_toList]
    exact h2
  unfold flattenObject
  rw [flattenGo_eq f "" [] hnodup (by simp), hf]
  simp

/-! ## Lookup behaviour of the filter-building loop -/

theorem overwriteP_cons_eq {α : Type} (k : String) (v0 : α) (rest : List (String × α)) (v : α) :
    overwriteP ((k, v0) :: rest) k v = (k, v) :: overwriteP rest k v := by
  simp [overwriteP]

theorem overwriteP_cons_ne {α : Type} {k0 k : String} (v0 : α) (rest : List (String × α))
    (v : α) (h : ¬(k0 = k)) :
    overwriteP ((k0, v0) :: rest) k v = (k0, v0) :: overwriteP rest k v := by
  simp [overwriteP, h]

theorem setKeyP_cons_eq {α : Type} (k : String) (v0 : α) (rest : List (String × α)) (v : α) :
    setKeyP ((k, v0) :: rest) k v = (k, v) :: overwriteP rest k v := by
  simp [setKeyP]

theorem setKeyP_cons_ne {α : Type} {k0 k : String} (v0 : α) (rest : List (String × α))
    (v : α) (h : ¬(k0 = k)) :
    setKeyP ((k0, v0) :: rest) k v = (k0, v0) :: setKeyP rest k v := by
  simp [setKeyP, h]

theorem lookupP_cons_eq {α : Type} (k : String) (v : α) (rest : List (String × α)) :
    lookupP ((k, v) :: rest) k = some v := by
  simp [lookupP]

theorem lookupP_cons_ne {α : Type} {k0 k' : String} (v : α) (rest : List (String × α))
    (h : ¬(k0 = k')) :
    lookupP ((k0, v) :: rest) k' = lookupP rest k' := by
  simp [lookupP, h]

theorem lookupP_overwriteP_other {α : Type} :
    ∀ (m : List (String × α)) (k k' : String) (v : α), k' ≠ k →
      lookupP (overwriteP m k v) k' = lookupP m k'
  | [], _, _, _, _ => rfl
  | (k0, v0) :: rest, k, k', v, h => by
      by_cases hk : k0 = k
      · subst hk
        have hne : ¬(k0 = k') := fun e => h e.symm
        rw [overwriteP_cons_eq, lookupP_cons_ne v (overwriteP rest k0 v) hne,
          lookupP_cons_ne v0 rest hne]
        exact lookupP_overwriteP_other rest k0 k' v h
      · rw [overwriteP_cons_ne v0 rest v hk]
        by_cases he : k0 = k'
        · subst he
          rw [lookupP_cons_eq, lookupP_cons_eq]
        · rw [lookupP_cons_ne v0 _ he, lookupP_cons_ne v0 rest he]
          exact lookupP_overwriteP_other rest k k' v h

theorem lookupP_setKeyP_self {α : Type} :
    ∀ (m : List (String × α)) (k : String) (v : α), lookupP (setKeyP m k v) k = some v
  | [], k, v => by simp [setKeyP, lookupP]
  | (k0, v0) :: rest, k, v => by
      by_cases hk : k0 = k
      · subst hk
        rw [setKeyP_cons_eq, lookupP_cons_eq]
      · rw [setKeyP_cons_ne v0 rest v hk, lookupP_cons_ne v0 _ hk]
        exact lookupP_setKeyP_self rest k v

theorem lookupP_setKeyP_other {α : Type} :
    ∀ (m : List (String × α)) (k k' : String) (v : α), k' ≠ k →
      lookupP (setKeyP m k v) k' = lookupP m k'
  | [], k, k', v, h => by
      have hne : ¬(k = k') := fun e => h e.symm
      simp [setKeyP, lookupP, hne]
  | (k0, v0) :: rest, k, k', v, h => by
      by_cases hk : k0 = k
      · subst hk
        have hne : ¬(k0 = k') := fun e => h e.symm
        rw [setKeyP_cons_eq, lookupP_cons_ne v (overwriteP rest k0 v) hne,
          lookupP_cons_ne v0 rest hne]
        exact lookupP_overwriteP_other rest k0 k' v h
      · rw [setKeyP_cons_ne v0 rest v hk]
        by_cases he : k0 = k'
        · subst he
          rw [lookupP_cons_eq, lookupP_cons_eq]
        · rw [lookupP_cons_ne v0 _ he, lookupP_cons_ne v0 rest he]
          exact lookupP_setKeyP_other rest k k' v h

/-- The filter field written by one query parameter: `none` for reserved
keys (skipped), the stripped field for `__exists` keys, the key itself
otherwise. -/
def paramTarget (kv : String × String) : Option String :=
  if reservedKeys.contains kv.1 then none
  else if jsEndsWith kv.1 "__exists" then some (existsField kv.1)
  else some kv.1

/-- One iteration of the filter-building loop. -/
def buildFilterStep (acc : List (String × FilterVal)) (kv : String × String) :
    List (String × FilterVal) :=
  if reservedKeys.contains kv.1 then acc
  else if jsEndsWith kv.1 "__exists" then
    setKeyP acc (existsField kv.1) (.existsVal (kv.2 == "true"))
  else setKeyP acc kv.1 (filterValue kv.2)

theorem buildFilter_eq_foldl (q : List (String × String)) :
    buildFilter q = q.foldl buildFilterStep [] := rfl

theorem buildFilter_skip :
    ∀ (q : List (String × String)) (acc : List (String × FilterVal)) (key : String),
      (∀ kv ∈ q, paramTarget kv ≠ some key) →
      lookupP (q.foldl buildFilterStep acc) key = lookupP acc key
  | [], acc, key, _ => rfl
  | kv :: q', acc, key, h => by
      simp only [List.foldl_cons]
      rw [buildFilter_skip q' (buildFilterStep acc kv) key
        (fun kv2 h2 => h kv2 (by simp [h2]))]
      have hkv := h kv (by simp)
      by_cases hres : reservedKeys.contains kv.1
      · unfold buildFilterStep
        rw [if_pos hres]
      · unfold buildFilterStep
        rw [if_neg hres]
        unfold paramTarget at hkv
        rw [if_neg hres] at hkv
        by_cases hsuf : jsEndsWith kv.1 "__exists"
        · rw [if_pos hsuf] at hkv ⊢
          exact lookupP_setKeyP_other acc (existsField kv.1) key _
            (fun e => hkv (by rw [e]))
        · rw [if_neg hsuf] at hkv ⊢
          exact lookupP_setKeyP_other acc kv.1 key _ (fun e => hkv (by rw [e]))

theorem buildFilter_lookup (q : List (String × String)) (key raw : String)
    (hmem : (key, raw) ∈ q) (hnd : (q.map Prod.fst).Nodup)
    (hres : reservedKeys.contains key = false)
    (hsuf : jsEndsWith key "__exists" = false)
    (hint : ∀ kv ∈ q, kv.1 ≠ key → paramTarget kv ≠ some key) :
    lookupP (buildFilter q) key = some (filterValue raw) := by
  obtain ⟨q1, q2, rfl⟩ := List.append_of_mem hmem
  rw [buildFilter_eq_foldl, List.foldl_append, List.foldl_cons]
  have hq2 : ∀ kv ∈ q2, paramTarget kv ≠ some key := by
    intro kv hkv
    apply hint kv (by simp [hkv])
    intro e
    rw [List.map_append, List.map_cons] at hnd
    have hnd2 := (List.nodup_append.mp hnd).2.1
    rw [List.nodup_cons] at hnd2
    have hm : kv.1 ∈ q2.map Prod.fst := List.mem_map_of_mem Prod.fst hkv
    rw [e] at hm
    exact hnd2.1 hm
  rw [buildFilter_skip q2 _ key hq2]
  have hresm : key ∉ reservedKeys := by
    intro hm
    rw [List.contains_eq_any_beq] at hres
    simp only [List.any_eq_false] at hres
    exact absurd (by simp) (hres key hm)
  have hres1 : ¬(reservedKeys.contains (key, raw).1 = true) := by simp [hresm]
  have hsuf1 : ¬(jsEndsWith (key, raw).1 "__exists" = true) := by simp [hsuf]
  have hstep : buildFilterStep (q1.foldl buildFilterStep []) (key, raw)
      = setKeyP (q1.foldl buildFilterStep []) key (filterValue raw) := by
    unfold buildFilterStep
    rw [if_neg hres1, if_neg hsuf1]
  rw [hstep]
  exact lookupP_setKeyP_self _ key (filterValue raw)

/-! ## `split('__')` behaviour for the `__exists` field extraction -/

theorem splitSep2_base (a b : Char) (r : List Char) :
    splitSep2 a b (a :: b :: r) = [] :: splitSep2 a b r := by
  simp [splitSep2]

theorem splitSep2_sep : ∀ (a b : Char) (f r : List Char),
    noSep2 a b (f ++ [a]) = true → splitSep2 a b (f ++ a :: b :: r) = f :: splitSep2 a b r
  | a, b, [], r, _ => by simpa using splitSep2_base a b r
  | a, b, [x], r, h => by
      have hx : ¬(x = a ∧ a = b) := by
        simp only [List.cons_append, List.nil_append, noSep2, Bool.and_eq_true,
          Bool.not_eq_true', Bool.and_eq_false_iff] at h
        rcases h.1 with h1 | h1 <;> intro hc
        · rw [hc.1] at h1
          simp at h1
        · rw [hc.2] at h1
          simp at h1
      simp [splitSep2, hx, splitSep2_base a b r]
  | a, b, x :: z :: f'', r, h => by
      have hx : ¬(x = a ∧ z = b) := by
        simp only [List.cons_append, noSep2, Bool.and_eq_true, Bool.not_eq_true',
          Bool.and_eq_false_iff] at h
        rcases h.1 with h1 | h1 <;> intro hc
        · rw [hc.1] at h1
          simp at h1
        · rw [hc.2] at h1
          simp at h1
      have htail : noSep2 a b ((z :: f'') ++ [a]) = true := by
        simp only [List.cons_append, noSep2, Bool.and_eq_true] at h ⊢
        exact h.2
      have ih := splitSep2_sep a b (z :: f'') r htail
      simp only [List.cons_append] at ih ⊢
      simp [splitSep2, hx, ih]

theorem isPrefixOf_append_self : ∀ (l m : List Char), l.isPrefixOf (l ++ m) = true
  | [], _ => by simp [List.isPrefixOf]
  | c :: l', m => by simp [List.isPrefixOf, isPrefixOf_append_self l' m]

theorem jsEndsWith_append (s t : String) : jsEndsWith (s ++ t) t = true := by
  have h : (s ++ t).data = s.data ++ t.data := rfl
  rw [jsEndsWith, h, List.isSuffixOf, List.reverse_append]
  exact isPrefixOf_append_self t.data.reverse s.data.reverse

/-- On a key of the shape `f ++ "__exists"` whose field part contains no
`__` occurrence (including the straddling position: `f ++ "_"` is
`__`-free), the source's `key.split('__')[0]` recovers `f`. -/
theorem existsField_strip (f : String) (h : noSep2 '_' '_' (f.data ++ ['_']) = true) :
    existsField (f ++ "__exists") = f := by
  have h1 : jsSplit (f ++ "__exists") "__"
      = (splitSep2 '_' '_' (f.data ++ '_' :: '_' :: "exists".data)).map String.mk := rfl
  rw [existsField, h1, splitSep2_sep '_' '_' f.data ("exists".data) h]
  simp [strMk_data]

/-! ## The claims -/

/-- The running example tree `{a: {b: 1, c: [1,2]}, d: "x"}`. -/
def exampleTree : JsonFields :=
  .cons "a" (.obj (.cons "b" (.num 1)
      (.cons "c" (.arr (.cons (.num 1) (.cons (.num 2) .nil))) .nil)))
    (.cons "d" (.str "x") .nil)

/-- Claim C1: per-token type inference follows the priority
number, then boolean (`"true"`/`"false"`, case-sensitively), then string;
the inputs `"42"`, `"true"`, `"false"`, `"abc"` infer to the number 42,
`true`, `false` and the string `"abc"`; and the tokens of a comma list
are converted independently (elementwise `map`). -/
theorem c1_type_inference :
    (∀ val n, jsStringToNumber val = some n → convertToken val = .num n) ∧
    (∀ val, jsStringToNumber val = none →
      convertToken val = if val = "true" then .bool true
        else if val = "false" then .bool false else .str val) ∧
    convertToken "42" = .num (.fin 42) ∧
    convertToken "true" = .bool true ∧
    convertToken "false" = .bool false ∧
    convertToken "abc" = .str "abc" ∧
    (∀ raw, convertedTokens raw = (jsSplit raw ",").map convertToken) := by
  refine ⟨?_, ?_, by decide, by decide, by decide, by decide, fun raw => rfl⟩
  · intro val n h
    simp [convertToken, h]
  · intro val h
    simp [convertToken, h]

theorem c1_witness :
    jsStringToNumber "7" = some (.fin 7) ∧ convertToken "7" = .num (.fin 7) :=
  ⟨by decide, c1_type_inference.1 "7" (.fin 7) (by decide)⟩

/-- Claim C2 counterexample: the parameter `a=5` is non-reserved and does
not end in `__exists`, and its single token converts to the number 5, yet
in the query `a=5&a__exists=true` the filter entry for the field `a` is
the existence predicate written by the later `a__exists` parameter, not
the direct equality the claim requires. -/
theorem c2_counterexample :
    buildFilter [("a", "5"), ("a__exists", "true")] = [("a", .existsVal true)] ∧
    jsSplit "5" "," = ["5"] ∧
    convertToken "5" = .num (.fin 5) ∧
    FilterVal.existsVal true ≠ .eqVal (.num (.fin 5)) := by
  exact ⟨by decide, by decide, by decide, by decide⟩

/-- Claim C2 (amended): splitting on commas, a single token gives a direct
equality and several tokens give an `$in` list in token order without
deduplication; and the filter entry of a non-reserved, non-`__exists`
parameter is its converted value provided no other parameter (a duplicate
key or a `__exists` key targeting the same field) writes that field. -/
theorem c2_amended :
    (∀ raw v, convertedTokens raw = [v] → filterValue raw = .eqVal v) ∧
    (∀ raw, (jsSplit raw ",").length ≠ 1 →
      filterValue raw = .inVals (convertedTokens raw)) ∧
    (∀ raw, convertedTokens raw = (jsSplit raw ",").map convertToken) ∧
    (∀ (q : List (String × String)) (key raw : String),
      (key, raw) ∈ q → (q.map Prod.fst).Nodup →
      reservedKeys.contains key = false → jsEndsWith key "__exists" = false →
      (∀ kv ∈ q, kv.1 ≠ key → paramTarget kv ≠ some key) →
      lookupP (buildFilter q) key = some (filterValue raw)) ∧
    filterValue "active,pending" = .inVals [.str "active", .str "pending"] ∧
    filterValue "1,2,3" = .inVals [.num (.fin 1), .num (.fin 2), .num (.fin 3)] := by
  refine ⟨?_, ?_, fun raw => rfl, buildFilter_lookup, by decide, by decide⟩
  · intro raw v h
    simp [filterValue, h]
  · intro raw hlen
    have hlen2 : (convertedTokens raw).length ≠ 1 := by
      simpa [convertedTokens] using hlen
    cases hc : convertedTokens raw with
    | nil => simp [filterValue, hc]
    | cons v t =>
      cases t with
      | nil => rw [hc] at hlen2; simp at hlen2
      | cons v2 t2 => simp [filterValue, hc]

theorem c2_witness :
    lookupP (buildFilter [("status", "active,pending")]) "status"
      = some (filterValue "active,pending") :=
  c2_amended.2.2.2.1 [("status", "active,pending")] "status" "active,pending"
    (by decide) (by decide) (by decide) (by decide) (by decide)

/-- Claim C3: a non-object value (including `null` and arrays, which are
leaves) is emitted as one entry at the accumulated prefix; a plain object
is recursed with child prefix `prefix ? prefix + "." + key : key` and its
mapping merged; the example `{a: {b: 1, c: [1,2]}, d: "x"}` flattens to
exactly `{"a.b": 1, "a.c": [1,2], "d": "x"}`; and flattening an
already-flat object (unique keys) is the identity transform. -/
theorem c3_flatten :
    (∀ acc nk v, (∀ ch, v ≠ .obj ch) → flattenStep acc nk v = setKeyP acc nk v) ∧
    (∀ acc nk elems, flattenStep acc nk (.arr elems) = setKeyP acc nk (.arr elems)) ∧
    (∀ acc nk ch, flattenStep acc nk (.obj ch) = assignAll acc (flattenGo ch nk [])) ∧
    (∀ pre k, joinKey pre k = if pre = "" then k else pre ++ "." ++ k) ∧
    flattenObject exampleTree ""
      = [("a.b", .num 1), ("a.c", .arr (.cons (.num 1) (.cons (.num 2) .nil))),
         ("d", .str "x")] ∧
    (∀ f, noObjVals f = true → f.keys.Nodup → flattenObject f "" = f.toList) := by
  refine ⟨?_, fun acc nk elems => rfl, fun acc nk ch => rfl, fun pre k => rfl,
    by decide, flattenObject_flat⟩
  intro acc nk v h
  cases v with
  | obj ch => exact absurd rfl (h ch)
  | null => rfl
  | bool b => rfl
  | num q => rfl
  | str s => rfl
  | arr xs => rfl

theorem c3_witness :
    noObjVals (.cons "x" (.num 1) .nil) = true ∧
    (JsonFields.cons "x" (.num 1) .nil).keys.Nodup ∧
    flattenObject (.cons "x" (.num 1) .nil) ""
      = (JsonFields.cons "x" (.num 1) .nil).toList :=
  ⟨by decide, by decide, c3_flatten.2.2.2.2.2 _ (by decide) (by decide)⟩

/-- Claim C4 counterexample: for `limit=notanumber` the handler computes
`parseInt('notanumber')`, which is `NaN` (modelled `none`), not 50. -/
theorem c4_counterexample :
    parsedLimitOf (some "notanumber") = none ∧
    parsedLimitOf (some "notanumber") ≠ some 50 :=
  ⟨by decide, by decide⟩

/-- Claim C4 (amended): the resolved limit is the `parseInt` value when the
parameter is present, non-empty and parses; it is 50 when the parameter is
absent or the empty string; and it is `NaN` (no numeric limit, modelled
`none`) when the parse fails — the translator never crashes (the function
is total). -/
theorem c4_amended :
    parsedLimitOf none = some 50 ∧
    parsedLimitOf (some "") = some 50 ∧
    (∀ s n, s ≠ "" → jsParseInt s = some n → parsedLimitOf (some s) = some n) ∧
    (∀ s, s ≠ "" → jsParseInt s = none → parsedLimitOf (some s) = none) ∧
    parsedLimitOf (some "25") = some 25 ∧
    parsedLimitOf (some "notanumber") = none := by
  refine ⟨by decide, by decide, ?_, ?_, by decide, by decide⟩
  · intro s n hne h
    simp [parsedLimitOf, hne, h]
  · intro s hne h
    simp [parsedLimitOf, hne, h]

theorem c4_witness : parsedLimitOf (some "12abc") = some 12 :=
  c4_amended.2.2.1 "12abc" 12 (by decide) (by decide)

/-- Claim C5 counterexample: for the key `a__b__exists` (which ends with
`__exists`), stripping the suffix would give the field `a__b`, but the
source computes `key.split('__')[0]`, which is `a`. -/
theorem c5_counterexample :
    jsEndsWith "a__b__exists" "__exists" = true ∧
    existsField "a__b__exists" = "a" ∧
    ("a" : String) ≠ "a__b" ∧
    buildFilter [("a__b__exists", "true")] = [("a", .existsVal true)] :=
  ⟨by decide, by decide, by decide, by decide⟩

/-- Claim C5 (amended): the target field of a `__exists` parameter is the
part of the key before its first `__` occurrence — which equals the
suffix-stripped field exactly when the field part contains no `__` and
does not end in `_` — and the existence flag is true iff the raw value is
exactly `"true"` (case-sensitively; `"True"` gives `false`). -/
theorem c5_amended :
    (∀ f : String, noSep2 '_' '_' (f.data ++ ['_']) = true →
      existsField (f ++ "__exists") = f) ∧
    (∀ key v acc, reservedKeys.contains key = false →
      jsEndsWith key "__exists" = true →
      buildFilterStep acc (key, v) = setKeyP acc (existsField key) (.existsVal (v == "true"))) ∧
    ("true" == "true") = true ∧ ("True" == "true") = false ∧
    ("false" == "true") = false ∧
    lookupP (buildFilter [("deletedAt__exists", "false")]) "deletedAt"
      = some (.existsVal false) := by
  refine ⟨existsField_strip, ?_, by decide, by decide, by decide, by decide⟩
  intro key v acc hres hsuf
  have hresm : key ∉ reservedKeys := by
    intro hm
    rw [List.contains_eq_any_beq] at hres
    simp only [List.any_eq_false] at hres
    exact absurd (by simp) (hres key hm)
  have hres1 : ¬(reservedKeys.contains (key, v).1 = true) := by simp [hresm]
  unfold buildFilterStep
  rw [if_neg hres1, if_pos hsuf]

theorem c5_witness :
    noSep2 '_' '_' ("deletedAt".data ++ ['_']) = true ∧
    existsField ("deletedAt" ++ "__exists") = "deletedAt" :=
  ⟨by decide, c5_amended.1 "deletedAt" (by decide)⟩

/-- Claim C6 counterexample: field names may contain dots; flattening
`{a: 1, "a.b": 2}` yields the keys `a` and `a.b`, and `a` is a strict
dot-path ancestor of `a.b` — so the prefix-freeness invariant fails. -/
theorem c6_counterexample :
    flattenObject (.cons "a" (.num 1) (.cons "a.b" (.num 2) .nil)) ""
      = [("a", .num 1), ("a.b", .num 2)] ∧
    dotAncestor "a" "a.b" :=
  ⟨by decide, ⟨"b", by decide⟩⟩

/-- Claim C6 (amended): when all keys of the tree are non-empty, dot-free
and pairwise distinct among siblings, no key of the flattened update is a
strict dot-path ancestor of another key of the mapping. -/
theorem c6_amended (f : JsonFields) (h : okKeysF f = true) :
    ((flattenObject f "").map Prod.fst).Pairwise
      (fun x y => ¬ dotAncestor x y ∧ ¬ dotAncestor y x) := by
  rw [flattenObject_eq_flatF f h, flatF_keys]
  rw [List.pairwise_map]
  refine List.Pairwise.imp_of_mem ?_ (pairsF_div f h)
  intro p q hp hq hdiv
  obtain ⟨pv1, hpv1, rfl⟩ := List.mem_map.mp hp
  obtain ⟨pv2, hpv2, rfl⟩ := List.mem_map.mp hq
  have hd := joinDiv_of_diverge (pairsF_segOK f h pv1 hpv1)
    (pairsF_segOK f h pv2 hpv2) hdiv
  exact ⟨hd.2.1, hd.2.2⟩

theorem c6_witness :
    okKeysF exampleTree = true ∧
    ((flattenObject exampleTree "").map Prod.fst).Pairwise
      (fun x y => ¬ dotAncestor x y ∧ ¬ dotAncestor y x) :=
  ⟨by decide, c6_amended exampleTree (by decide)⟩

/-- Claim C7 counterexample: `{a: {}}` has no colliding path segments
(its keys are non-empty, dot-free and distinct), yet flattening drops the
empty-object subtree, so the reconstruction returns the empty object, not
the original tree. -/
theorem c7_counterexample :
    okKeysF (.cons "a" (.obj .nil) .nil) = true ∧
    unflatten (flattenObject (.cons "a" (.obj .nil) .nil) "") = [] ∧
    ([] : List (String × Json)) ≠ (JsonFields.cons "a" (.obj .nil) .nil).toList :=
  ⟨by decide, by decide, by decide⟩

/-- Claim C7 (amended): for a tree with non-empty, dot-free, sibling-unique
keys and no empty-object value anywhere, flattening and then rebuilding
the nested object by splitting each flat key on `.` reproduces the
original tree. -/
theorem c7_amended (f : JsonFields) (h1 : okKeysF f = true) (h2 : neoF f = true) :
    unflatten (flattenObject f "") = f.toList :=
  unflatten_flattenObject f h1 h2

theorem c7_witness :
    okKeysF exampleTree = true ∧ neoF exampleTree = true ∧
    unflatten (flattenObject exampleTree "") = exampleTree.toList :=
  ⟨by decide, by decide, c7_amended exampleTree (by decide) (by decide)⟩

/-- Claim C8 counterexample: `sortBy` present but equal to the empty
string is falsy in JavaScript, so the handler produces an empty sort
specification, not a single-field sort on the empty-named field. -/
theorem c8_counterexample :
    sortObjOf (some "") "asc" = [] ∧
    ([] : List (String × Int)) ≠ [("", 1)] :=
  ⟨by decide, by decide⟩

/-- Claim C8 (amended): with `sortBy` present and non-empty the sort is a
single-field sort on that field, descending exactly when `sortOrder`
lower-cases to `"desc"` and ascending otherwise (including unrecognized
strings such as `"up"`); with `sortBy` absent or empty the sort is empty. -/
theorem c8_amended :
    (∀ s o, s ≠ "" → jsToLower o = "desc" → sortObjOf (some s) o = [(s, -1)]) ∧
    (∀ s o, s ≠ "" → jsToLower o ≠ "desc" → sortObjOf (some s) o = [(s, 1)]) ∧
    (∀ o, sortObjOf none o = []) ∧
    (∀ o, sortObjOf (some "") o = []) ∧
    sortObjOf (some "age") "DESC" = [("age", -1)] ∧
    sortObjOf (some "age") "up" = [("age", 1)] := by
  refine ⟨?_, ?_, fun o => rfl, fun o => by simp [sortObjOf], by decide, by decide⟩
  · intro s o hs ho
    simp [sortObjOf, hs, ho]
  · intro s o hs ho
    simp [sortObjOf, hs, ho]

theorem c8_witness : sortObjOf (some "age") "Desc" = [("age", -1)] :=
  c8_amended.1 "age" "Desc" (by decide) (by decide)

/-- Claim C9: a missing (or empty) `collection` yields an immediate
400 `{success: false, message}` on all three endpoints, with the store
never consulted (each endpoint's response is then independent of the
store); a store error yields 500 `{success: false, error}` carrying the
store's message on all three endpoints; an update/delete identifier
matching no document yields 404; and a read success yields exactly
`{success: true, data}` with status 200. -/
theorem c9_error_handling :
    (∀ params store, (lookupP params "collection").getD "" = "" →
      getData params store = ⟨400, .failMsg "Missing required collection parameter."⟩) ∧
    (∀ params s1 s2, (lookupP params "collection").getD "" = "" →
      getData params s1 = getData params s2) ∧
    (∀ params store m, (lookupP params "collection").getD "" ≠ "" →
      store (translateQuery params) = .error m →
      getData params store = ⟨500, .failErr m⟩) ∧
    (∀ params store docs, (lookupP params "collection").getD "" ≠ "" →
      store (translateQuery params) = .ok docs →
      getData params store = ⟨200, .getSuccess docs⟩) ∧
    (∀ params body store, (lookupP params "collection").getD "" = "" →
      updateDocument params body store
        = ⟨400, .failMsg "Missing collection or id in query."⟩) ∧
    (∀ params body store, (lookupP params "collection").getD "" ≠ "" →
      (lookupP params "id").getD "" ≠ "" →
      store ((lookupP params "id").getD "") body = .ok none →
      updateDocument params body store = ⟨404, .failMsg "Document not found."⟩) ∧
    (∀ params store, (lookupP params "collection").getD "" ≠ "" →
      (lookupP params "id").getD "" ≠ "" →
      store ((lookupP params "id").getD "") = .ok none →
      deleteDocument params store = ⟨404, .failMsg "Document not found."⟩) ∧
    (∀ params store, (lookupP params "collection").getD "" = "" →
      deleteDocument params store
        = ⟨400, .failMsg "Missing collection or id in query."⟩) ∧
    (∀ params body s1 s2, (lookupP params "collection").getD "" = "" →
      updateDocument params body s1 = updateDocument params body s2) ∧
    (∀ params s1 s2, (lookupP params "collection").getD "" = "" →
      deleteDocument params s1 = deleteDocument params s2) ∧
    (∀ params body store m, (lookupP params "collection").getD "" ≠ "" →
      (lookupP params "id").getD "" ≠ "" →
      store ((lookupP params "id").getD "") body = .error m →
      updateDocument params body store = ⟨500, .failErr m⟩) ∧
    (∀ params store m, (lookupP params "collection").getD "" ≠ "" →
      (lookupP params "id").getD "" ≠ "" →
      store ((lookupP params "id").getD "") = .error m →
      deleteDocument params store = ⟨500, .failErr m⟩) := by
  refine ⟨?_, ?_, ?_, ?_, ?_, ?_, ?_, ?_, ?_, ?_, ?_, ?_⟩
  · intro params store h
    simp [getData, h]
  · intro params s1 s2 h
    simp [getData, h]
  · intro params store m h hs
    simp [getData, h, hs]
  · intro params store docs h hs
    simp [getData, h, hs]
  · intro params body store h
    simp [updateDocument, h]
  · intro params body store h1 h2 hs
    simp only [updateDocument]
    rw [if_neg (by simp [h1, h2]), hs]
  · intro params store h1 h2 hs
    simp only [deleteDocument]
    rw [if_neg (by simp [h1, h2]), hs]
  · intro params store h
    simp [deleteDocument, h]
  · intro params body s1 s2 h
    simp [updateDocument, h]
  · intro params s1 s2 h
    simp [deleteDocument, h]
  · intro params body store m h1 h2 hs
    simp only [updateDocument]
    rw [if_neg (by simp [h1, h2]), hs]
  · intro params store m h1 h2 hs
    simp only [deleteDocument]
    rw [if_neg (by simp [h1, h2]), hs]

theorem c9_witness :
    getData [("collection", "users")] (fun _ => Except.error "boom")
      = ⟨500, .failErr "boom"⟩ :=
  c9_error_handling.2.2.1 [("collection", "users")]
    (fun _ => Except.error "boom") "boom" (by decide) rfl

/-- Claim C10 counterexample: in `{a: {b: {}}, "a.b": 5}` the empty object
sits at accumulated path `a.b`, which the flattening drops, yet the
flattened update does contain an entry at the key `a.b` coming from the
dotted sibling field name. -/
theorem c10_counterexample :
    eopSF (.cons "a" (.obj (.cons "b" (.obj .nil) .nil))
      (.cons "a.b" (.num 5) .nil)) "" = ["a.b"] ∧
    "a.b" ∈ (flattenObject (.cons "a" (.obj (.cons "b" (.obj .nil) .nil))
      (.cons "a.b" (.num 5) .nil)) "").map Prod.fst :=
  ⟨by decide, by decide⟩

/-- Claim C10 (amended): an empty-object value contributes nothing to the
flattened update (locally, the reduce step leaves the accumulator
untouched), and under non-empty, dot-free, sibling-unique keys the
flattened update has no entry at the accumulated path of any empty-object
value; in particular `{a: {}}` flattens to the empty mapping. -/
theorem c10_amended (f : JsonFields) (h : okKeysF f = true) :
    (∀ pkey ∈ eopSF f "", pkey ∉ (flattenObject f "").map Prod.fst) ∧
    (∀ acc nk, flattenStep acc nk (.obj .nil) = acc) ∧
    flattenObject (.cons "a" (.obj .nil) .nil) "" = [] := by
  refine ⟨?_, fun acc nk => rfl, rfl⟩
  intro pkey hp hmem
  rw [eopSF_join] at hp
  obtain ⟨ep, hep, rfl⟩ := List.mem_map.mp hp
  rw [flattenObject_eq_flatF f h, flatF_keys] at hmem
  obtain ⟨path, hpath, heq⟩ := List.mem_map.mp hmem
  obtain ⟨pv, hpv, rfl⟩ := List.mem_map.mp hpath
  have hdiv := eopF_div f h ep hep pv hpv
  have hd := joinDiv_of_diverge (eopF_segOK f h ep hep)
    (pairsF_segOK f h pv hpv) hdiv
  exact hd.1 heq.symm

theorem c10_witness :
    okKeysF (.cons "a" (.obj (.cons "b" (.obj .nil) .nil))
      (.cons "c" (.num 1) .nil)) = true ∧
    "a.b" ∈ eopSF (.cons "a" (.obj (.cons "b" (.obj .nil) .nil))
      (.cons "c" (.num 1) .nil)) "" ∧
    "a.b" ∉ (flattenObject (.cons "a" (.obj (.cons "b" (.obj .nil) .nil))
      (.cons "c" (.num 1) .nil)) "").map Prod.fst :=
  ⟨by decide, by decide,
    (c10_amended _ (by decide)).1 "a.b" (by decide)⟩
